import Mathlib

/-!
Verification of the knight/bishop path-finding engine
(`vibe_coding_samples/knight_bishop_solver.py`).

The engine computes the minimum number of knight moves between two squares of a
rectangular board while never *transiting* a square in a bishop's diagonal line
of sight.  Four strategies are provided: plain BFS, bidirectional BFS, A* and
IDA*, plus a string-keyed dispatcher with an "auto" mode.

This file gives a shallow embedding of the engine: every Python method is
translated to an executable Lean function (loops become fueled recursion, with
the fuel proved sufficient), and the claims of the specification are settled as
theorems about those functions.
-/

set_option maxHeartbeats 1000000

/-- A position on the chess board represented as `(row, column)`
(the `Position` NamedTuple of the source). -/
structure Position where
  row : Int
  col : Int
deriving DecidableEq, Repr

/-- The knight's possible moves, exactly the list `self.knight_moves` set up by
`KnightBishopSolver.__init__`. -/
def knightMoves : List (Int × Int) :=
  [(-2, -1), (-2, 1), (-1, -2), (-1, 2), (1, -2), (1, 2), (2, -1), (2, 1)]

/-- The solver state built by `KnightBishopSolver.__init__`: board dimensions,
bishop position and the precomputed line-of-sight set (kept as a list; the
Python set is only ever used for membership tests). -/
structure KnightBishopSolver where
  rows : Int
  cols : Int
  bishopPos : Position
  bishopLineOfSight : List Position
deriving Repr

/-- One diagonal walk of `_get_bishop_line_of_sight`: starting from `(r, c)`,
repeatedly step by `d` and collect squares while they stay on the board,
stopping at the first off-board square.  The Python `while True` loop needs no
fuel; here the fuel passed by `lineOfSightList` is provably sufficient, because
the row coordinate changes by `±1` each kept step and kept steps stay in
`[0, rows)`, so at most `rows.toNat + 1` steps are ever kept. -/
def losWalk (rows cols : Int) (d : Int × Int) : Nat → Int → Int → List Position
  | 0, _, _ => []
  | fuel + 1, r, c =>
    let r' := r + d.1
    let c' := c + d.2
    if 0 ≤ r' ∧ r' < rows ∧ 0 ≤ c' ∧ c' < cols then
      ⟨r', c'⟩ :: losWalk rows cols d fuel r' c'
    else []

/-- `_get_bishop_line_of_sight`: the bishop's own square plus the four diagonal
rays, each walked to the first off-board square. -/
def lineOfSightList (rows cols : Int) (b : Position) : List Position :=
  let fuel := rows.toNat + cols.toNat + 2
  ⟨b.row, b.col⟩ ::
    (losWalk rows cols (1, 1) fuel b.row b.col ++
     losWalk rows cols (1, -1) fuel b.row b.col ++
     losWalk rows cols (-1, 1) fuel b.row b.col ++
     losWalk rows cols (-1, -1) fuel b.row b.col)

/-- `KnightBishopSolver.__init__(rows, cols, bishop_pos)`. -/
def mkSolver (rows cols : Int) (bishopPos : Position) : KnightBishopSolver :=
  { rows := rows, cols := cols, bishopPos := bishopPos,
    bishopLineOfSight := lineOfSightList rows cols bishopPos }

/-- `_is_valid_position`: on the board and not in the bishop's line of sight. -/
def isValidPosition (s : KnightBishopSolver) (p : Position) : Bool :=
  decide (0 ≤ p.row ∧ p.row < s.rows ∧ 0 ≤ p.col ∧ p.col < s.cols) &&
  decide (p ∉ s.bishopLineOfSight)

/-- `_knight_distance_heuristic`: special cases for small displacements, then
`max(ceil(dr/2), ceil(dc/2))` (`(x + 1) // 2` in the source). -/
def knightDistanceHeuristic (pos target : Position) : Nat :=
  let dr := (pos.row - target.row).natAbs
  let dc := (pos.col - target.col).natAbs
  if dr = 0 ∧ dc = 0 then 0
  else if dr = 0 ∧ dc = 1 then 3
  else if dr = 1 ∧ dc = 0 then 3
  else if dr = 1 ∧ dc = 1 then 2
  else max ((dr + 1) / 2) ((dc + 1) / 2)

/-- The inner `for d_row, d_col in self.knight_moves` loop of `bfs`, expanding
one dequeued `(pos, moves)`.  `none` means the end square was generated (the
caller returns `moves + 1`); otherwise the updated queue and visited set are
returned.  The end test comes before the validity test, as in the source. -/
def bfsExpand (s : KnightBishopSolver) (endP pos : Position) (moves : Nat) :
    List (Int × Int) → List (Position × Nat) → List Position →
    Option (List (Position × Nat) × List Position)
  | [], queue, visited => some (queue, visited)
  | d :: ms, queue, visited =>
    let next : Position := ⟨pos.row + d.1, pos.col + d.2⟩
    if next = endP then none
    else if isValidPosition s next = true ∧ next ∉ visited then
      bfsExpand s endP pos moves ms (queue ++ [(next, moves + 1)]) (next :: visited)
    else
      bfsExpand s endP pos moves ms queue visited

/-- The `while queue` loop of `bfs`.  `none` means the fuel ran out, which the
correctness proof shows never happens for the fuel chosen in `bfs`. -/
def bfsAux (s : KnightBishopSolver) (endP : Position) :
    Nat → List (Position × Nat) → List Position → Option Int
  | 0, _, _ => none
  | _ + 1, [], _ => some (-1)
  | fuel + 1, (pos, moves) :: queue, visited =>
    match bfsExpand s endP pos moves knightMoves queue visited with
    | none => some ((moves : Int) + 1)
    | some (queue', visited') => bfsAux s endP fuel queue' visited'

/-- `bfs(start, end)`: breadth-first search; `-1` if the end square is never
generated.  Each loop iteration pops one queue entry, entries are enqueued at
most once per square (guarded by the visited set), and all enqueued squares are
valid, so `rows * cols + 2` iterations always suffice (proved below). -/
def bfs (s : KnightBishopSolver) (start endP : Position) : Int :=
  if start = endP then 0
  else (bfsAux s endP (s.rows.toNat * s.cols.toNat + 2) [(start, 0)] [start]).getD (-1)

/-- Lookup in an association list used to model the Python dicts
`forward_visited` / `backward_visited` / `g_scores`; updates are modelled by
consing, so the most recent binding shadows older ones. -/
def vLookup : List (Position × Nat) → Position → Option Nat
  | [], _ => none
  | (q, v) :: m, p => if p = q then some v else vLookup m p

/-- The inner move loop of one `bidirectional_bfs` step, expanding `(pos, moves)`
for one direction.  `own`/`other` are this direction's and the opposite
direction's visited maps.  `.error total` models the early `return total_moves`
when the newly improved square is already in the other visited map. -/
def bbExpand (s : KnightBishopSolver) (pos : Position) (moves : Nat) :
    List (Int × Int) → List (Position × Nat) → List (Position × Nat) →
    List (Position × Nat) →
    Except Int (List (Position × Nat) × List (Position × Nat))
  | [], queue, own, _ => .ok (queue, own)
  | d :: ms, queue, own, other =>
    let next : Position := ⟨pos.row + d.1, pos.col + d.2⟩
    if isValidPosition s next = true then
      let improving :=
        match vLookup own next with
        | none => true
        | some v => decide (moves + 1 < v)
      if improving then
        match vLookup other next with
        | some w => .error ((moves : Int) + 1 + (w : Int))
        | none =>
          bbExpand s pos moves ms (queue ++ [(next, moves + 1)])
            ((next, moves + 1) :: own) other
      else bbExpand s pos moves ms queue own other
    else bbExpand s pos moves ms queue own other

/-- The `while forward_queue and backward_queue` loop of `bidirectional_bfs`:
one forward pop-and-expand step followed by one backward step.  A `continue`
triggered by the forward staleness test skips the backward step of the same
iteration, as in the source.  `none` means the fuel ran out (proved impossible
for the fuel chosen in `bidirectionalBfs` for valid start/end). -/
def bbAux (s : KnightBishopSolver) :
    Nat → List (Position × Nat) → List (Position × Nat) →
    List (Position × Nat) → List (Position × Nat) → Option Int
  | 0, _, _, _, _ => none
  | _ + 1, [], _, _, _ => some (-1)
  | _ + 1, _ :: _, [], _, _ => some (-1)
  | fuel + 1, (pos, moves) :: fq, (bpos, bmoves) :: bq, fv, bv =>
    if (vLookup fv pos).any (fun v => decide (v < moves)) then
      bbAux s fuel fq ((bpos, bmoves) :: bq) fv bv
    else
      match bbExpand s pos moves knightMoves fq fv bv with
      | .error total => some total
      | .ok (fq', fv') =>
        if (vLookup bv bpos).any (fun v => decide (v < bmoves)) then
          bbAux s fuel fq' bq fv' bv
        else
          match bbExpand s bpos bmoves knightMoves bq bv fv' with
          | .error total => some total
          | .ok (bq', bv') => bbAux s fuel fq' bq' fv' bv'

/-- Fuel for `bbAux`: every iteration pops at least one forward entry, and at
most `(rows * cols + 2) * (rows * cols + 2)` entries are ever enqueued per
direction (each square's recorded value strictly decreases across pushes and
recorded values are bounded by the number of recorded squares). -/
def bbFuel (s : KnightBishopSolver) : Nat :=
  (s.rows.toNat * s.cols.toNat + 2) * (s.rows.toNat * s.cols.toNat + 3) + 3

/-- `bidirectional_bfs(start, end)`. -/
def bidirectionalBfs (s : KnightBishopSolver) (start endP : Position) : Int :=
  if start = endP then 0
  else
    (bbAux s (bbFuel s) [(start, 0)] [(endP, 0)] [(start, 0)] [(endP, 0)]).getD (-1)

/-- A heap entry of `a_star`: `(f_score, moves, position)`. -/
abbrev AEntry : Type := Nat × Nat × Position

/-- Strict lexicographic comparison of heap entries, matching Python's tuple
comparison `(f_score, moves, position)` with `Position` itself compared as the
tuple `(row, col)`. -/
def aEntryLt (a b : AEntry) : Bool :=
  decide (a.1 < b.1 ∨ (a.1 = b.1 ∧ (a.2.1 < b.2.1 ∨ (a.2.1 = b.2.1 ∧
    (a.2.2.row < b.2.2.row ∨
      (a.2.2.row = b.2.2.row ∧ a.2.2.col < b.2.2.col))))))

/-- The least entry of `e :: l` under `aEntryLt` (the earliest one in case of
ties; ties never occur in reachable states, where all keys are distinct). -/
def minAEntry : AEntry → List AEntry → AEntry
  | e, [] => e
  | e, x :: xs => minAEntry (if aEntryLt x e then x else e) xs

/-- `heapq.heappop`: remove and return the least entry.  The heap is modelled
as a plain list; since all keys in reachable states are distinct (each square's
pushed `moves` values strictly decrease), the popped entry is the one Python's
heap returns, and only the multiset of remaining entries matters. -/
def popMin (l : List AEntry) : Option (AEntry × List AEntry) :=
  match l with
  | [] => none
  | x :: xs =>
    let m := minAEntry x xs
    some (m, l.erase m)

/-- The inner move loop of `a_star`, expanding a popped `(f, moves, pos)`.
`.error (moves + 1)` models the early return when the end square is generated
(tested before validity, as in the source). -/
def aStarExpand (s : KnightBishopSolver) (endP pos : Position) (moves : Nat) :
    List (Int × Int) → List AEntry → List (Position × Nat) →
    Except Int (List AEntry × List (Position × Nat))
  | [], openl, g => .ok (openl, g)
  | d :: ms, openl, g =>
    let next : Position := ⟨pos.row + d.1, pos.col + d.2⟩
    if next = endP then .error ((moves : Int) + 1)
    else if isValidPosition s next = true then
      let ng := moves + 1
      let improving :=
        match vLookup g next with
        | none => true
        | some v => decide (ng < v)
      if improving then
        aStarExpand s endP pos moves ms
          ((ng + knightDistanceHeuristic next endP, ng, next) :: openl)
          ((next, ng) :: g)
      else aStarExpand s endP pos moves ms openl g
    else aStarExpand s endP pos moves ms openl g

/-- The `while open_set` loop of `a_star`.  In the source `closed_set.add(pos)`
happens just before the move loop; since the move loop never reads the closed
set, adding `pos` after the expansion (as done here) is the same. -/
def aStarAux (s : KnightBishopSolver) (endP : Position) :
    Nat → List AEntry → List (Position × Nat) → List Position → Option Int
  | 0, _, _, _ => none
  | fuel + 1, openl, g, closed =>
    match popMin openl with
    | none => some (-1)
    | some ((_, moves, pos), openl') =>
      if decide (pos ∈ closed) &&
          ((vLookup g pos).any fun v => decide (v < moves)) then
        aStarAux s endP fuel openl' g closed
      else
        match aStarExpand s endP pos moves knightMoves openl' g with
        | .error r => some r
        | .ok (openl'', g') => aStarAux s endP fuel openl'' g' (pos :: closed)

/-- Fuel for `aStarAux`, sufficient for the same counting reason as `bbFuel`. -/
def aStarFuel (s : KnightBishopSolver) : Nat :=
  (s.rows.toNat * s.cols.toNat + 2) * (s.rows.toNat * s.cols.toNat + 3) + 3

/-- `a_star(start, end)`. -/
def aStar (s : KnightBishopSolver) (start endP : Position) : Int :=
  if start = endP then 0
  else
    (aStarAux s endP (aStarFuel s)
      [(knightDistanceHeuristic start endP, 0, start)] [(start, 0)] []).getD (-1)

/-- Folds the recursive results of the move loop of `ida_star`'s `search`:
return the first negative result immediately (found the end), otherwise the
minimum of all results, starting from `float("inf")` (modelled by `⊤`).
Skipped moves (invalid square or square already on the path) are encoded by the
caller as `some ⊤`, which leaves the minimum unchanged exactly as Python's
`continue` leaves `min_bound` unchanged.  An inner `none` (fuel exhaustion)
aborts the whole search. -/
def idaCombine : List (Option (WithTop Int)) → WithTop Int → Option (WithTop Int)
  | [], acc => some acc
  | none :: _, _ => none
  | some t :: rest, acc => if t < 0 then some t else idaCombine rest (min acc t)

/-- The recursive `search(pos, g, bound)` of `ida_star`.  The fuel bounds the
recursion depth; `idaInnerFuel` is proved sufficient because the path is a
duplicate-free list of squares that are valid (or the start square). -/
def idaSearch (s : KnightBishopSolver) (endP : Position) :
    Nat → List Position → Position → Nat → Int → Option (WithTop Int)
  | 0, _, _, _, _ => none
  | fuel + 1, path, pos, g, bound =>
    let f : Int := (g : Int) + (knightDistanceHeuristic pos endP : Int)
    if f > bound then some (f : WithTop Int)
    else if pos = endP then some ((-(g : Int) : Int) : WithTop Int)
    else
      idaCombine
        (knightMoves.map fun d =>
          let next : Position := ⟨pos.row + d.1, pos.col + d.2⟩
          if isValidPosition s next = true ∧ next ∉ path then
            idaSearch s endP fuel (path ++ [next]) next (g + 1) bound
          else some (⊤ : WithTop Int))
        (⊤ : WithTop Int)

/-- Recursion-depth fuel for `idaSearch`. -/
def idaInnerFuel (s : KnightBishopSolver) : Nat :=
  s.rows.toNat * s.cols.toNat + 3

/-- Fuel for the iterative-deepening outer loop: the bound strictly increases
every kept iteration and never exceeds the largest possible `f` value, which is
bounded by the board capacity plus the heuristic ceiling below. -/
def idaOuterFuel (s : KnightBishopSolver) (start endP : Position) : Nat :=
  s.rows.toNat * s.cols.toNat + s.rows.toNat + s.cols.toNat +
    start.row.natAbs + start.col.natAbs + endP.row.natAbs + endP.col.natAbs + 12

/-- The `while True` outer loop of `ida_star`: negative search results signal
success (`return -t`), `⊤` (Python's `float("inf")`) signals exhaustion
(`return -1`), any other result becomes the new bound. -/
def idaStarAux (s : KnightBishopSolver) (start endP : Position) (innerFuel : Nat) :
    Nat → Int → Option Int
  | 0, _ => none
  | fuel + 1, bound =>
    match idaSearch s endP innerFuel [start] start 0 bound with
    | none => none
    | some (⊤ : WithTop Int) => some (-1)
    | some ((z : Int) : WithTop Int) =>
      if z < 0 then some (-z) else idaStarAux s start endP innerFuel fuel z

/-- `ida_star(start, end)`. -/
def idaStar (s : KnightBishopSolver) (start endP : Position) : Int :=
  if start = endP then 0
  else
    (idaStarAux s start endP (idaInnerFuel s) (idaOuterFuel s start endP)
      ((knightDistanceHeuristic start endP : Int))).getD (-1)

/-- The error raised by `solve` for an unknown method string
(`raise ValueError(f"Unknown method: ...")` in the source). -/
inductive SolveError where
  | invalidMethod : String → SolveError
deriving DecidableEq, Repr

/-- `solve(start, end, method)`: convert the tuples to positions, resolve
`"auto"` by board size, and dispatch on the method string.  The wall-clock
`time_taken` component of the Python result is real time and is not modelled;
only the `moves` component is. -/
def solve (s : KnightBishopSolver) (start endP : Int × Int) (method : String) :
    Except SolveError Int :=
  let startPos : Position := ⟨start.1, start.2⟩
  let endPos : Position := ⟨endP.1, endP.2⟩
  let m := if method = "auto" then
      (if s.rows ≤ 8 ∧ s.cols ≤ 8 then "bidirectional_bfs" else "a_star")
    else method
  if m = "bfs" then .ok (bfs s startPos endPos)
  else if m = "bidirectional_bfs" then .ok (bidirectionalBfs s startPos endPos)
  else if m = "a_star" then .ok (aStar s startPos endPos)
  else if m = "ida_star" then .ok (idaStar s startPos endPos)
  else .error (.invalidMethod m)


/-! ## Concrete behaviour of the strategies (claims C3, C7, C9, C10) -/

/-- C3: on the 10×21 board (rows = 10, cols = 21) with the bishop at (4, 6),
`bfs` from (0, 10) to (9, 4) returns 5 — the expected ground-truth answer of
the documented "interesting case". -/
theorem c3_bfs_interesting_case :
    bfs (mkSolver 10 21 ⟨4, 6⟩) ⟨0, 10⟩ ⟨9, 4⟩ = 5 := by decide

/-- C7: on the 1×17 board with the bishop at (0, 5), start (0, 11) and end
(0, 14), every strategy reports unreachability with the sentinel value `-1`
(no error value is produced; the total functions return `-1`). -/
theorem c7_corridor_unreachable :
    bfs (mkSolver 1 17 ⟨0, 5⟩) ⟨0, 11⟩ ⟨0, 14⟩ = -1 ∧
    bidirectionalBfs (mkSolver 1 17 ⟨0, 5⟩) ⟨0, 11⟩ ⟨0, 14⟩ = -1 ∧
    aStar (mkSolver 1 17 ⟨0, 5⟩) ⟨0, 11⟩ ⟨0, 14⟩ = -1 ∧
    idaStar (mkSolver 1 17 ⟨0, 5⟩) ⟨0, 11⟩ ⟨0, 14⟩ = -1 := by decide

/-- C9: for every method string outside the five understood ones, `solve`
fails with the fatal invalid-method error and never produces a moves result;
there is no silent fallback to a default strategy. -/
theorem c9_solve_invalid_method (s : KnightBishopSolver) (start endP : Int × Int)
    (method : String)
    (h : method ∉ ["bfs", "bidirectional_bfs", "a_star", "ida_star", "auto"]) :
    solve s start endP method = .error (.invalidMethod method) := by
  simp only [List.mem_cons, List.not_mem_nil, or_false, not_or] at h
  obtain ⟨h1, h2, h3, h4, h5⟩ := h
  simp only [solve, if_neg h5, if_neg h1, if_neg h2, if_neg h3, if_neg h4]

/-- Witness for C9 at the concrete unknown method string "dfs". -/
theorem c9_solve_invalid_method_witness :
    "dfs" ∉ ["bfs", "bidirectional_bfs", "a_star", "ida_star", "auto"] ∧
    solve (mkSolver 8 8 ⟨3, 3⟩) (0, 0) (7, 7) "dfs" =
      .error (.invalidMethod "dfs") :=
  ⟨by decide, c9_solve_invalid_method _ _ _ _ (by decide)⟩

/-- C10: `solve` with method "auto" dispatches to `bidirectionalBfs` exactly
when both board dimensions are at most 8 and to `aStar` otherwise, and its
moves result is exactly the selected strategy's value on the converted
positions. -/
theorem c10_solve_auto_dispatch (s : KnightBishopSolver) (start endP : Int × Int) :
    solve s start endP "auto" =
      .ok (if s.rows ≤ 8 ∧ s.cols ≤ 8 then
            bidirectionalBfs s ⟨start.1, start.2⟩ ⟨endP.1, endP.2⟩
          else
            aStar s ⟨start.1, start.2⟩ ⟨endP.1, endP.2⟩) := by
  by_cases h : s.rows ≤ 8 ∧ s.cols ≤ 8
  · simp [solve, h]
  · simp [solve, h]

/-! ## The knight-step relation and admissibility of the heuristic (claim C4) -/

/-- One knight move from `p` to `q`: the displacement is one of the 8 offsets. -/
def KStep (p q : Position) : Prop :=
  (q.row - p.row, q.col - p.col) ∈ knightMoves

instance (p q : Position) : Decidable (KStep p q) := by
  unfold KStep; infer_instance

/-- Component form of `KStep`. -/
theorem kStep_iff (p q : Position) : KStep p q ↔
    ((q.row - p.row = -2 ∧ q.col - p.col = -1) ∨
     (q.row - p.row = -2 ∧ q.col - p.col = 1) ∨
     (q.row - p.row = -1 ∧ q.col - p.col = -2) ∨
     (q.row - p.row = -1 ∧ q.col - p.col = 2) ∨
     (q.row - p.row = 1 ∧ q.col - p.col = -2) ∨
     (q.row - p.row = 1 ∧ q.col - p.col = 2) ∨
     (q.row - p.row = 2 ∧ q.col - p.col = -1) ∨
     (q.row - p.row = 2 ∧ q.col - p.col = 1)) := by
  simp [KStep, knightMoves, Prod.ext_iff]

/-- `KnightReach p t n`: the knight can go from `p` to `t` in exactly `n` moves
on an unobstructed, unbounded board (no validity constraint at all). -/
inductive KnightReach : Position → Position → Nat → Prop
  | refl (p : Position) : KnightReach p p 0
  | step {p q r : Position} {n : Nat} :
      KnightReach p q n → KStep q r → KnightReach p r (n + 1)

/-- Each knight move changes each coordinate by at most 2. -/
theorem knightReach_displacement {p t : Position} {n : Nat}
    (h : KnightReach p t n) :
    (t.row - p.row).natAbs ≤ 2 * n ∧ (t.col - p.col).natAbs ≤ 2 * n := by
  induction h with
  | refl => simp
  | step _ hs ih =>
    rcases (kStep_iff _ _).1 hs with h8 | h8 | h8 | h8 | h8 | h8 | h8 | h8 <;>
      obtain ⟨ha, hb⟩ := h8 <;> obtain ⟨ih1, ih2⟩ := ih <;> constructor <;> omega

/-- Each knight move changes the coordinate sum by an odd amount. -/
theorem knightReach_parity {p t : Position} {n : Nat} (h : KnightReach p t n) :
    (t.row + t.col - (p.row + p.col)) % 2 = (n : Int) % 2 := by
  induction h with
  | refl => simp
  | step _ hs ih =>
    rcases (kStep_iff _ _).1 hs with h8 | h8 | h8 | h8 | h8 | h8 | h8 | h8 <;>
      obtain ⟨ha, hb⟩ := h8 <;> push_cast <;> omega

/-- Admissibility of `_knight_distance_heuristic` (shared helper): the value
never exceeds the length of any knight path between the two positions, even on
an unobstructed board. -/
theorem heuristic_admissible {p t : Position} {n : Nat}
    (h : KnightReach p t n) : knightDistanceHeuristic p t ≤ n := by
  obtain ⟨hr, hc⟩ := knightReach_displacement h
  have hpar := knightReach_parity h
  unfold knightDistanceHeuristic
  dsimp only
  split_ifs with h1 h2 h3 h4
  · exact Nat.zero_le n
  · obtain ⟨ha, hb⟩ := h2
    rcases n with _ | _ | _ | n
    · cases h; omega
    · rcases h with _ | ⟨h0, hs⟩
      cases h0
      rcases (kStep_iff _ _).1 hs with h8 | h8 | h8 | h8 | h8 | h8 | h8 | h8 <;> omega
    · omega
    · omega
  · obtain ⟨ha, hb⟩ := h3
    rcases n with _ | _ | _ | n
    · cases h; omega
    · rcases h with _ | ⟨h0, hs⟩
      cases h0
      rcases (kStep_iff _ _).1 hs with h8 | h8 | h8 | h8 | h8 | h8 | h8 | h8 <;> omega
    · omega
    · omega
  · obtain ⟨ha, hb⟩ := h4
    rcases n with _ | _ | n
    · cases h; omega
    · rcases h with _ | ⟨h0, hs⟩
      cases h0
      rcases (kStep_iff _ _).1 hs with h8 | h8 | h8 | h8 | h8 | h8 | h8 | h8 <;> omega
    · omega
  · simp only [sup_le_iff]
    omega

/-- C4: the heuristic `_knight_distance_heuristic` is admissible: it never
exceeds the length of any knight path between the two positions on an
unobstructed board, hence never exceeds the true (minimal) knight distance. -/
theorem c4_heuristic_admissible (p t : Position) (n : Nat)
    (h : KnightReach p t n) : knightDistanceHeuristic p t ≤ n :=
  heuristic_admissible h

/-- Witness for C4: a single knight move realises distance 1 and the heuristic
value is at most 1 there. -/
theorem c4_heuristic_admissible_witness :
    KnightReach ⟨0, 0⟩ ⟨1, 2⟩ 1 ∧ knightDistanceHeuristic ⟨0, 0⟩ ⟨1, 2⟩ ≤ 1 :=
  have h : KnightReach ⟨0, 0⟩ ⟨1, 2⟩ 1 :=
    KnightReach.step (KnightReach.refl _) (by decide)
  ⟨h, c4_heuristic_admissible _ _ _ h⟩

/-! ## Paths through valid squares, and the ground-truth distance (claims C1, C6) -/

/-- The square reached from `p` by the move offset `d`. -/
def stepTo (p : Position) (d : Int × Int) : Position :=
  ⟨p.row + d.1, p.col + d.2⟩

theorem stepTo_def (p : Position) (d : Int × Int) :
    stepTo p d = ⟨p.row + d.1, p.col + d.2⟩ := rfl

theorem position_ext {p q : Position} (h1 : p.row = q.row) (h2 : p.col = q.col) :
    p = q := by
  cases p; cases q; simp_all

theorem kStep_stepTo (p : Position) {d : Int × Int} (hd : d ∈ knightMoves) :
    KStep p (stepTo p d) := by
  have : (d.1, d.2) = d := rfl
  simpa [KStep, stepTo, this] using hd

theorem kStep_exists_move {p q : Position} (h : KStep p q) :
    ∃ d ∈ knightMoves, q = stepTo p d := by
  refine ⟨(q.row - p.row, q.col - p.col), h, ?_⟩
  exact position_ext (by simp [stepTo]) (by simp [stepTo])

/-- `ReachV s a p n`: from `a` the knight reaches `p` in `n` moves, with every
square after `a` (including `p` itself when `n > 0`) valid for `s`.  The start
square `a` itself is never constrained, exactly as in the search loops. -/
inductive ReachV (s : KnightBishopSolver) (a : Position) : Position → Nat → Prop
  | refl : ReachV s a a 0
  | step {p q : Position} {n : Nat} :
      ReachV s a p n → KStep p q → isValidPosition s q = true →
      ReachV s a q (n + 1)

/-- `ReachEndN s a b n`: a knight path from `a` to `b` of `n` moves all of whose
intermediate squares are valid.  `b` itself is not constrained: the searches
test the end square before the validity test, so a path may end on an invalid
square. -/
def ReachEndN (s : KnightBishopSolver) (a b : Position) : Nat → Prop
  | 0 => a = b
  | n + 1 => ∃ p, ReachV s a p n ∧ KStep p b

/-- The number of board squares, bounding every fuel value. -/
def boardCap (s : KnightBishopSolver) : Nat := s.rows.toNat * s.cols.toNat

/-- The finset of all in-bounds positions of the board. -/
def boardFinset (s : KnightBishopSolver) : Finset Position :=
  ((Finset.range s.rows.toNat) ×ˢ (Finset.range s.cols.toNat)).image
    (fun rc => ⟨(rc.1 : Int), (rc.2 : Int)⟩)

theorem card_boardFinset (s : KnightBishopSolver) :
    (boardFinset s).card ≤ boardCap s := by
  calc (boardFinset s).card
      ≤ ((Finset.range s.rows.toNat) ×ˢ (Finset.range s.cols.toNat)).card :=
        Finset.card_image_le
    _ = boardCap s := by simp [boardCap]

theorem valid_mem_boardFinset {s : KnightBishopSolver} {p : Position}
    (h : isValidPosition s p = true) : p ∈ boardFinset s := by
  simp only [isValidPosition, Bool.and_eq_true, decide_eq_true_eq] at h
  obtain ⟨⟨h1, h2, h3, h4⟩, -⟩ := h
  refine Finset.mem_image.2 ⟨(p.row.toNat, p.col.toNat), ?_, ?_⟩
  · simp only [Finset.mem_product, Finset.mem_range]
    omega
  · exact position_ext (by simp; omega) (by simp; omega)

/-- A duplicate-free list of squares that are all valid or equal to `a` has at
most `boardCap + 1` entries. -/
theorem length_le_of_nodup_valid {s : KnightBishopSolver} {a : Position}
    {l : List Position} (hn : l.Nodup)
    (hv : ∀ p ∈ l, p = a ∨ isValidPosition s p = true) :
    l.length ≤ boardCap s + 1 := by
  have hsub : l.toFinset ⊆ insert a (boardFinset s) := by
    intro p hp
    rcases hv p (List.mem_toFinset.1 hp) with rfl | h
    · exact Finset.mem_insert_self _ _
    · exact Finset.mem_insert_of_mem (valid_mem_boardFinset h)
  have hcard := Finset.card_le_card hsub
  rw [List.toFinset_card_of_nodup hn] at hcard
  calc l.length ≤ (insert a (boardFinset s)).card := hcard
    _ ≤ (boardFinset s).card + 1 := Finset.card_insert_le _ _
    _ ≤ boardCap s + 1 := by have := card_boardFinset s; omega

/-- Loop invariant of `bfs`: the queue holds exactly the discovered-but-not-yet
expanded squares with their exact minimal distances, labels are sorted and
within one of each other, and every fully expanded square has all its valid
knight neighbours already visited and none of its knight neighbours equal to
the end square (otherwise the loop would have returned). -/
structure BfsInv (s : KnightBishopSolver) (a b : Position)
    (queue : List (Position × Nat)) (visited : List Position) : Prop where
  start_mem : a ∈ visited
  nodup : visited.Nodup
  visited_ok : ∀ p ∈ visited, p = a ∨ isValidPosition s p = true
  queue_sub : ∀ e ∈ queue, e.1 ∈ visited
  least : ∀ e ∈ queue, IsLeast {n | ReachV s a e.1 n} e.2
  sorted : (queue.map Prod.snd).Pairwise (· ≤ ·)
  spread : ∀ e ∈ queue, ∀ e' ∈ queue, e.2 ≤ e'.2 + 1
  closure : ∀ p ∈ visited, (∀ m, (p, m) ∉ queue) → ∀ d ∈ knightMoves,
      stepTo p d ≠ b ∧
      (isValidPosition s (stepTo p d) = true → stepTo p d ∈ visited)

/-- Invariant holding while the move loop of one `bfs` iteration runs: the
entry `(p, m)` has been popped, the moves still in `ms` are unprocessed, and
the processed moves already satisfy the closure property for `p`. -/
structure MidInv (s : KnightBishopSolver) (a b p : Position) (m : Nat)
    (ms : List (Int × Int)) (queue : List (Position × Nat))
    (visited : List Position) : Prop where
  start_mem : a ∈ visited
  nodup : visited.Nodup
  visited_ok : ∀ q ∈ visited, q = a ∨ isValidPosition s q = true
  p_mem : p ∈ visited
  p_least : IsLeast {n | ReachV s a p n} m
  queue_sub : ∀ e ∈ queue, e.1 ∈ visited
  least : ∀ e ∈ queue, IsLeast {n | ReachV s a e.1 n} e.2
  sorted : (queue.map Prod.snd).Pairwise (· ≤ ·)
  lab_ge : ∀ e ∈ queue, m ≤ e.2
  lab_le : ∀ e ∈ queue, e.2 ≤ m + 1
  ms_sub : ∀ d ∈ ms, d ∈ knightMoves
  p_done : ∀ d ∈ knightMoves, d ∈ ms ∨
      (stepTo p d ≠ b ∧
        (isValidPosition s (stepTo p d) = true → stepTo p d ∈ visited))
  closure : ∀ q ∈ visited, (∀ m', (q, m') ∉ queue) → q ≠ p → ∀ d ∈ knightMoves,
      stepTo q d ≠ b ∧
      (isValidPosition s (stepTo q d) = true → stepTo q d ∈ visited)

/-- Unvisited squares are at distance at least `m + 1` from the start: the key
completeness property of the BFS frontier. -/
theorem MidInv.min_out {s : KnightBishopSolver} {a b p : Position} {m : Nat}
    {ms : List (Int × Int)} {queue : List (Position × Nat)}
    {visited : List Position}
    (inv : MidInv s a b p m ms queue visited) {q : Position} {n : Nat}
    (h : ReachV s a q n) (hq : q ∉ visited) : m + 1 ≤ n := by
  induction h with
  | refl => exact absurd inv.start_mem hq
  | @step prev q' n' hprev hs hv ih =>
    by_cases hmem : prev ∈ visited
    · by_cases hp : prev = p
      · subst hp
        have := inv.p_least.2 hprev
        omega
      · by_cases hpend : ∃ m', (prev, m') ∈ queue
        · obtain ⟨m', hm'⟩ := hpend
          have h1 := (inv.least _ hm').2 hprev
          have h2 := inv.lab_ge _ hm'
          simp only at h1 h2
          omega
        · push_neg at hpend
          obtain ⟨d, hd, rfl⟩ := kStep_exists_move hs
          have := (inv.closure prev hmem hpend hp d hd).2 hv
          exact absurd this hq
    · have := ih hmem
      omega
theorem bfsExpand_none {s : KnightBishopSolver} {b p : Position} {m : Nat} :
    ∀ {ms : List (Int × Int)} {queue : List (Position × Nat)}
      {visited : List Position},
    bfsExpand s b p m ms queue visited = none → ∃ d ∈ ms, stepTo p d = b := by
  intro ms
  induction ms with
  | nil => intro queue visited h; simp [bfsExpand] at h
  | cons d ms ih =>
    intro queue visited h
    rw [bfsExpand] at h
    split_ifs at h with h1 h2
    · exact ⟨d, List.mem_cons_self d ms, h1⟩
    · obtain ⟨d', hd', hb⟩ := ih h
      exact ⟨d', List.mem_cons_of_mem d hd', hb⟩
    · obtain ⟨d', hd', hb⟩ := ih h
      exact ⟨d', List.mem_cons_of_mem d hd', hb⟩

/-- Pushing a fresh valid square during the move loop preserves the invariant. -/
theorem MidInv.push_bfs {s : KnightBishopSolver} {a b p : Position} {m : Nat}
    {d : Int × Int} {ms : List (Int × Int)} {queue : List (Position × Nat)}
    {visited : List Position}
    (inv : MidInv s a b p m (d :: ms) queue visited)
    (hnb : stepTo p d ≠ b)
    (hval : isValidPosition s (stepTo p d) = true)
    (hnot : stepTo p d ∉ visited) :
    MidInv s a b p m ms (queue ++ [(stepTo p d, m + 1)])
      (stepTo p d :: visited) := by
  have hd : d ∈ knightMoves := inv.ms_sub d (List.mem_cons_self d ms)
  refine
    { start_mem := List.mem_cons_of_mem _ inv.start_mem
      nodup := List.nodup_cons.2 ⟨hnot, inv.nodup⟩
      visited_ok := ?_
      p_mem := List.mem_cons_of_mem _ inv.p_mem
      p_least := inv.p_least
      queue_sub := ?_
      least := ?_
      sorted := ?_
      lab_ge := ?_
      lab_le := ?_
      ms_sub := fun d' hd' => inv.ms_sub d' (List.mem_cons_of_mem d hd')
      p_done := ?_
      closure := ?_ }
  · intro q hq
    rcases List.mem_cons.1 hq with rfl | hq
    · exact Or.inr hval
    · exact inv.visited_ok q hq
  · intro e he
    rcases List.mem_append.1 he with he | he
    · exact List.mem_cons_of_mem _ (inv.queue_sub e he)
    · rw [List.mem_singleton.1 he]
      exact List.mem_cons_self _ _
  · intro e he
    rcases List.mem_append.1 he with he | he
    · exact inv.least e he
    · rw [List.mem_singleton.1 he]
      exact ⟨ReachV.step inv.p_least.1 (kStep_stepTo p hd) hval,
        fun n hn => inv.min_out hn hnot⟩
  · rw [List.map_append]
    refine List.pairwise_append.2 ⟨inv.sorted, by simp, ?_⟩
    intro x hx y hy
    simp only [List.map_cons, List.map_nil, List.mem_singleton] at hy
    subst hy
    obtain ⟨e, he, rfl⟩ := List.mem_map.1 hx
    exact inv.lab_le e he
  · intro e he
    rcases List.mem_append.1 he with he | he
    · exact inv.lab_ge e he
    · rw [List.mem_singleton.1 he]; omega
  · intro e he
    rcases List.mem_append.1 he with he | he
    · exact inv.lab_le e he
    · rw [List.mem_singleton.1 he]
  · intro d' hd'
    rcases inv.p_done d' hd' with hin | hdone
    · rcases List.mem_cons.1 hin with rfl | hin
      · exact Or.inr ⟨hnb, fun _ => List.mem_cons_self _ _⟩
      · exact Or.inl hin
    · exact Or.inr ⟨hdone.1, fun hv => List.mem_cons_of_mem _ (hdone.2 hv)⟩
  · intro q hq hnq hqp d' hd'
    rcases List.mem_cons.1 hq with rfl | hq
    · exact absurd (List.mem_append.2 (Or.inr (List.mem_singleton.2 rfl)))
        (hnq (m + 1))
    · have hnq' : ∀ m', (q, m') ∉ queue := fun m' hm' =>
        hnq m' (List.mem_append.2 (Or.inl hm'))
      obtain ⟨h1, h2⟩ := inv.closure q hq hnq' hqp d' hd'
      exact ⟨h1, fun hv => List.mem_cons_of_mem _ (h2 hv)⟩

/-- A skipped move (end test failed, square invalid or already visited)
preserves the invariant. -/
theorem MidInv.skip_bfs {s : KnightBishopSolver} {a b p : Position} {m : Nat}
    {d : Int × Int} {ms : List (Int × Int)} {queue : List (Position × Nat)}
    {visited : List Position}
    (inv : MidInv s a b p m (d :: ms) queue visited)
    (hnb : stepTo p d ≠ b)
    (hskip : isValidPosition s (stepTo p d) = true → stepTo p d ∈ visited) :
    MidInv s a b p m ms queue visited :=
  { inv with
    ms_sub := fun d' hd' => inv.ms_sub d' (List.mem_cons_of_mem d hd')
    p_done := by
      intro d' hd'
      rcases inv.p_done d' hd' with hin | hdone
      · rcases List.mem_cons.1 hin with rfl | hin
        · exact Or.inr ⟨hnb, hskip⟩
        · exact Or.inl hin
      · exact Or.inr hdone }

theorem MidInv.toBfsInv {s : KnightBishopSolver} {a b p : Position} {m : Nat}
    {queue : List (Position × Nat)} {visited : List Position}
    (inv : MidInv s a b p m [] queue visited) : BfsInv s a b queue visited :=
  { start_mem := inv.start_mem
    nodup := inv.nodup
    visited_ok := inv.visited_ok
    queue_sub := inv.queue_sub
    least := inv.least
    sorted := inv.sorted
    spread := fun e he e' he' => by
      have h1 := inv.lab_le e he
      have h2 := inv.lab_ge e' he'
      omega
    closure := by
      intro q hq hnq d hd
      by_cases hqp : q = p
      · subst hqp
        rcases inv.p_done d hd with h | h
        · exact absurd h (List.not_mem_nil d)
        · exact h
      · exact inv.closure q hq hnq hqp d hd }

theorem bfsExpand_inv {s : KnightBishopSolver} {a b p : Position} {m : Nat} :
    ∀ {ms : List (Int × Int)} {queue queue' : List (Position × Nat)}
      {visited visited' : List Position},
    MidInv s a b p m ms queue visited →
    bfsExpand s b p m ms queue visited = some (queue', visited') →
    MidInv s a b p m [] queue' visited' ∧
    ∃ k, queue'.length = queue.length + k ∧
      visited'.length = visited.length + k := by
  intro ms
  induction ms with
  | nil =>
    intro queue queue' visited visited' inv h
    rw [bfsExpand] at h
    obtain ⟨rfl, rfl⟩ : queue = queue' ∧ visited = visited' := by
      simpa [eq_comm] using h
    exact ⟨inv, 0, by omega, by omega⟩
  | cons d ms ih =>
    intro queue queue' visited visited' inv h
    rw [bfsExpand] at h
    split_ifs at h with h1 h2
    · obtain ⟨hval, hnot⟩ := h2
      obtain ⟨minv, k, hk1, hk2⟩ := ih (inv.push_bfs h1 hval hnot) h
      refine ⟨minv, k + 1, ?_, ?_⟩
      · simp only [List.length_append, List.length_cons, List.length_nil] at hk1
        omega
      · simp only [List.length_cons] at hk2
        omega
    · have hskip : isValidPosition s (stepTo p d) = true → stepTo p d ∈ visited := by
        intro hv
        by_contra hnot
        exact h2 ⟨hv, hnot⟩
      exact ih (inv.skip_bfs h1 hskip) h

theorem BfsInv.pop {s : KnightBishopSolver} {a b p : Position} {m : Nat}
    {queue : List (Position × Nat)} {visited : List Position}
    (inv : BfsInv s a b ((p, m) :: queue) visited) :
    MidInv s a b p m knightMoves queue visited :=
  { start_mem := inv.start_mem
    nodup := inv.nodup
    visited_ok := inv.visited_ok
    p_mem := inv.queue_sub (p, m) (List.mem_cons_self _ _)
    p_least := inv.least (p, m) (List.mem_cons_self _ _)
    queue_sub := fun e he => inv.queue_sub e (List.mem_cons_of_mem _ he)
    least := fun e he => inv.least e (List.mem_cons_of_mem _ he)
    sorted := (List.pairwise_cons.1 (by simpa using inv.sorted)).2
    lab_ge := fun e he =>
      (List.pairwise_cons.1 (by simpa using inv.sorted)).1 e.2
        (List.mem_map.2 ⟨e, he, rfl⟩)
    lab_le := fun e he =>
      inv.spread e (List.mem_cons_of_mem _ he) (p, m) (List.mem_cons_self _ _)
    ms_sub := fun d hd => hd
    p_done := fun d hd => Or.inl hd
    closure := by
      intro q hq hnq hqp d hd
      refine inv.closure q hq ?_ d hd
      intro m' hm'
      rcases List.mem_cons.1 hm' with heq | hm'
      · exact hqp (congrArg Prod.fst heq)
      · exact hnq m' hm' }

/-- At a return the popped label plus one is a lower bound on every
path-to-end length: nothing closer to the end was overlooked. -/
theorem MidInv.return_le {s : KnightBishopSolver} {a b p : Position} {m : Nat}
    {ms : List (Int × Int)} {queue : List (Position × Nat)}
    {visited : List Position}
    (inv : MidInv s a b p m ms queue visited) (hne : a ≠ b) :
    ∀ n, ReachEndN s a b n → m + 1 ≤ n := by
  intro n hn
  cases n with
  | zero => exact absurd hn hne
  | succ n =>
    obtain ⟨p', hp', hs⟩ := hn
    by_cases hmem : p' ∈ visited
    · by_cases hpp : p' = p
      · subst hpp
        have := inv.p_least.2 hp'
        omega
      · by_cases hpend : ∃ m', (p', m') ∈ queue
        · obtain ⟨m', hm'⟩ := hpend
          have h1 := (inv.least _ hm').2 hp'
          have h2 := inv.lab_ge _ hm'
          simp only at h1 h2
          omega
        · push_neg at hpend
          obtain ⟨d, hd, rfl⟩ := kStep_exists_move hs
          exact absurd rfl ((inv.closure p' hmem hpend hpp d hd).1)
    · have := inv.min_out hp' hmem
      omega

/-- With an empty queue every square reachable through valid squares has been
visited. -/
theorem BfsInv.all_reached_bfs {s : KnightBishopSolver} {a b : Position}
    {visited : List Position} (inv : BfsInv s a b [] visited) :
    ∀ {q : Position} {n : Nat}, ReachV s a q n → q ∈ visited := by
  intro q n h
  induction h with
  | refl => exact inv.start_mem
  | step hprev hs hv ih =>
    obtain ⟨d, hd, rfl⟩ := kStep_exists_move hs
    exact (inv.closure _ ih (fun m' h' => List.not_mem_nil _ h') d hd).2 hv

theorem BfsInv.empty_no_path {s : KnightBishopSolver} {a b : Position}
    {visited : List Position} (inv : BfsInv s a b [] visited) (hne : a ≠ b) :
    ¬ ∃ n, ReachEndN s a b n := by
  rintro ⟨n, hn⟩
  cases n with
  | zero => exact hne hn
  | succ n =>
    obtain ⟨p', hp', hs⟩ := hn
    obtain ⟨d, hd, rfl⟩ := kStep_exists_move hs
    exact (inv.closure p' (inv.all_reached_bfs hp')
      (fun m' h' => List.not_mem_nil _ h') d hd).1 rfl

/-- Main loop correctness of `bfs`: from any invariant state with enough fuel,
the loop returns the least path-to-end length, or `-1` when there is none. -/
theorem bfsAux_correct (s : KnightBishopSolver) (a b : Position) (hne : a ≠ b) :
    ∀ (fuel : Nat) (queue : List (Position × Nat)) (visited : List Position),
    BfsInv s a b queue visited →
    queue.length + (boardCap s + 1 - visited.length) + 1 ≤ fuel →
    (∀ d : Nat, IsLeast {n | ReachEndN s a b n} d →
      bfsAux s b fuel queue visited = some (d : Int)) ∧
    ((¬ ∃ n, ReachEndN s a b n) → bfsAux s b fuel queue visited = some (-1)) := by
  intro fuel
  induction fuel with
  | zero => intro queue visited _ hf; omega
  | succ fuel ih =>
    intro queue visited inv hf
    match queue with
    | [] =>
      refine ⟨fun d hd => absurd ⟨d, hd.1⟩ (inv.empty_no_path hne), fun _ => rfl⟩
    | (p, m) :: queue' =>
      have mid : MidInv s a b p m knightMoves queue' visited := inv.pop
      cases hexp : bfsExpand s b p m knightMoves queue' visited with
      | none =>
        obtain ⟨d, hd, hdb⟩ := bfsExpand_none hexp
        have hreach : ReachEndN s a b (m + 1) :=
          ⟨p, mid.p_least.1, hdb ▸ kStep_stepTo p hd⟩
        constructor
        · intro dd hdd
          have h1 : dd ≤ m + 1 := hdd.2 hreach
          have h2 : m + 1 ≤ dd := mid.return_le hne dd hdd.1
          have hiq : dd = m + 1 := le_antisymm h1 h2
          subst hiq
          simp only [bfsAux, hexp]
          norm_num
        · intro hno
          exact absurd ⟨m + 1, hreach⟩ hno
      | some qv =>
        obtain ⟨queue'', visited''⟩ := qv
        obtain ⟨mid', k, hk1, hk2⟩ := bfsExpand_inv mid hexp
        have inv' := mid'.toBfsInv
        have hlen : visited''.length ≤ boardCap s + 1 :=
          length_le_of_nodup_valid inv'.nodup inv'.visited_ok
        simp only [List.length_cons] at hf
        have hrec := ih queue'' visited'' inv' (by omega)
        constructor
        · intro dd hdd
          have := hrec.1 dd hdd
          simpa only [bfsAux, hexp] using this
        · intro hno
          have := hrec.2 hno
          simpa only [bfsAux, hexp] using this

/-- Full specification of `bfs` for arbitrary start and end squares: it returns
the least length of a path whose intermediate squares are valid, and `-1`
exactly when no such path exists. -/
theorem bfs_spec (s : KnightBishopSolver) (a b : Position) :
    (∀ d : Nat, IsLeast {n | ReachEndN s a b n} d → bfs s a b = (d : Int)) ∧
    (bfs s a b = -1 ↔ ¬ ∃ n, ReachEndN s a b n) := by
  by_cases heq : a = b
  · subst heq
    have h0 : ReachEndN s a a 0 := rfl
    constructor
    · intro d hd
      have hd0 : d = 0 := Nat.le_zero.1 (hd.2 h0)
      simp [bfs, hd0]
    · constructor
      · intro hbfs
        simp [bfs] at hbfs
      · intro hno
        exact absurd ⟨0, h0⟩ hno
  · have inv : BfsInv s a b [(a, 0)] [a] :=
      { start_mem := List.mem_singleton.2 rfl
        nodup := List.nodup_singleton a
        visited_ok := fun p hp => Or.inl (List.mem_singleton.1 hp)
        queue_sub := by simp
        least := by
          intro e he
          rw [List.mem_singleton.1 he]
          exact ⟨ReachV.refl, fun n _ => Nat.zero_le n⟩
        sorted := by simp
        spread := by
          intro e he e' he'
          rw [List.mem_singleton.1 he]
          omega
        closure := by
          intro p hp hnq d hd
          rw [List.mem_singleton.1 hp] at hnq
          exact absurd (List.mem_singleton.2 rfl) (hnq 0) }
    have hfuel : ([(a, 0)] : List (Position × Nat)).length +
        (boardCap s + 1 - ([a] : List Position).length) + 1 ≤
        s.rows.toNat * s.cols.toNat + 2 := by
      simp only [List.length_singleton, boardCap]
      omega
    have hmain := bfsAux_correct s a b heq (s.rows.toNat * s.cols.toNat + 2)
      [(a, 0)] [a] inv hfuel
    constructor
    · intro d hd
      have := hmain.1 d hd
      simp [bfs, if_neg heq, this]
    · constructor
      · intro hbfs
        rintro ⟨n, hn⟩
        have hne : {n | ReachEndN s a b n}.Nonempty := ⟨n, hn⟩
        have hleast : IsLeast {n | ReachEndN s a b n} (sInf {n | ReachEndN s a b n}) :=
          ⟨Nat.sInf_mem hne, fun x hx => Nat.sInf_le hx⟩
        have := hmain.1 _ hleast
        rw [bfs, if_neg heq, this] at hbfs
        simp only [Option.getD_some] at hbfs
        omega
      · intro hno
        have := hmain.2 hno
        simp [bfs, if_neg heq, this]

/-- C1: for every board with at least one row and column, in-bounds bishop and
valid start/end squares, `bfs` returns the minimum number of knight moves over
all paths from start to end whose intermediate squares are valid, and returns
`-1` exactly when no such path exists. -/
theorem c1_bfs_optimal (rows cols : Int) (bishop start endP : Position)
    (hrows : 1 ≤ rows) (hcols : 1 ≤ cols)
    (hbishop : 0 ≤ bishop.row ∧ bishop.row < rows ∧
      0 ≤ bishop.col ∧ bishop.col < cols)
    (hstart : isValidPosition (mkSolver rows cols bishop) start = true)
    (hend : isValidPosition (mkSolver rows cols bishop) endP = true) :
    (∀ d : Nat,
      IsLeast {n | ReachEndN (mkSolver rows cols bishop) start endP n} d →
      bfs (mkSolver rows cols bishop) start endP = (d : Int)) ∧
    (bfs (mkSolver rows cols bishop) start endP = -1 ↔
      ¬ ∃ n, ReachEndN (mkSolver rows cols bishop) start endP n) :=
  bfs_spec (mkSolver rows cols bishop) start endP

/-- Witness for C1 on a concrete 4×4 board: the bishop at (3, 2) is in bounds,
start (0, 0) and end (1, 2) are valid, the one-move path is least, and `bfs`
returns 1. -/
theorem c1_bfs_optimal_witness :
    isValidPosition (mkSolver 4 4 ⟨3, 2⟩) ⟨0, 0⟩ = true ∧
    isValidPosition (mkSolver 4 4 ⟨3, 2⟩) ⟨1, 2⟩ = true ∧
    bfs (mkSolver 4 4 ⟨3, 2⟩) ⟨0, 0⟩ ⟨1, 2⟩ = 1 := by
  refine ⟨by decide, by decide, ?_⟩
  have hleast :
      IsLeast {n | ReachEndN (mkSolver 4 4 ⟨3, 2⟩) ⟨0, 0⟩ ⟨1, 2⟩ n} 1 := by
    constructor
    · exact ⟨⟨0, 0⟩, ReachV.refl, by decide⟩
    · intro n hn
      cases n with
      | zero =>
        have hne : (⟨0, 0⟩ : Position) ≠ ⟨1, 2⟩ := by decide
        exact absurd hn hne
      | succ n => omega
  have := (c1_bfs_optimal 4 4 ⟨3, 2⟩ ⟨0, 0⟩ ⟨1, 2⟩ (by decide) (by decide)
    (by decide) (by decide) (by decide)).1 1 hleast
  simpa using this

/-- C6: the engine never checks the start or end square for validity: if the
end square is in bounds, differs from the start and lies in the bishop's line
of sight, `bfs` still returns the least length of a path with valid
intermediate squares (it is returned as `moves + 1` the first time the end
square is generated), so an obstacle on the end square alone never forces a
`-1`; obstacles only block transit squares. -/
theorem c6_end_obstacle_not_checked (s : KnightBishopSolver)
    (start endP : Position)
    (hlos : endP ∈ s.bishopLineOfSight)
    (hin : 0 ≤ endP.row ∧ endP.row < s.rows ∧ 0 ≤ endP.col ∧ endP.col < s.cols)
    (hne : endP ≠ start)
    (d : Nat) (hd : IsLeast {n | ReachEndN s start endP n} d) :
    bfs s start endP = (d : Int) ∧ bfs s start endP ≠ -1 := by
  have h1 := (bfs_spec s start endP).1 d hd
  refine ⟨h1, ?_⟩
  rw [h1]
  omega

/-- Witness for C6: on the 8×8 board with bishop (3, 3), the end square (4, 4)
is on the bishop's diagonal (hence invalid) yet `bfs` from (2, 3) returns the
least path length 1. -/
theorem c6_end_obstacle_not_checked_witness :
    (⟨4, 4⟩ : Position) ∈ (mkSolver 8 8 ⟨3, 3⟩).bishopLineOfSight ∧
    bfs (mkSolver 8 8 ⟨3, 3⟩) ⟨2, 3⟩ ⟨4, 4⟩ = 1 := by
  refine ⟨by decide, ?_⟩
  have hleast :
      IsLeast {n | ReachEndN (mkSolver 8 8 ⟨3, 3⟩) ⟨2, 3⟩ ⟨4, 4⟩ n} 1 := by
    constructor
    · exact ⟨⟨2, 3⟩, ReachV.refl, by decide⟩
    · intro n hn
      cases n with
      | zero =>
        have hne : (⟨2, 3⟩ : Position) ≠ ⟨4, 4⟩ := by decide
        exact absurd hn hne
      | succ n => omega
  exact (c6_end_obstacle_not_checked (mkSolver 8 8 ⟨3, 3⟩) ⟨2, 3⟩ ⟨4, 4⟩
    (by decide) (by decide) (by decide) 1 hleast).1

/-! ## Bidirectional BFS: supporting lemmas and the per-side invariant (claim C5) -/

theorem vLookup_cons (q : Position) (w : Nat) (l : List (Position × Nat))
    (p : Position) :
    vLookup ((q, w) :: l) p = if p = q then some w else vLookup l p := rfl

theorem vLookup_mem : ∀ {l : List (Position × Nat)} {p : Position} {v : Nat},
    vLookup l p = some v → (p, v) ∈ l := by
  intro l
  induction l with
  | nil => intro p v h; simp [vLookup] at h
  | cons e l ih =>
    intro p v h
    obtain ⟨q, w⟩ := e
    rw [vLookup_cons] at h
    split_ifs at h with hpq
    · obtain rfl := hpq
      obtain rfl : w = v := by simpa using h
      exact List.mem_cons_self _ _
    · exact List.mem_cons_of_mem _ (ih h)

theorem vLookup_eq_none : ∀ {l : List (Position × Nat)} {p : Position},
    vLookup l p = none ↔ p ∉ l.map Prod.fst := by
  intro l
  induction l with
  | nil => intro p; simp [vLookup]
  | cons e l ih =>
    intro p
    obtain ⟨q, w⟩ := e
    rw [vLookup_cons]
    split_ifs with hpq
    · subst hpq; simp
    · simp [ih, hpq]

theorem vLookup_isSome_of_mem {l : List (Position × Nat)} {e : Position × Nat}
    (h : e ∈ l) : vLookup l e.1 ≠ none := by
  intro hnone
  exact (vLookup_eq_none.1 hnone) (List.mem_map.2 ⟨e, h, rfl⟩)

/-- Under the strictness invariant, the first binding (the dict value) is the
least binding of its key. -/
theorem vLookup_min_of_strict :
    ∀ {l : List (Position × Nat)} {p : Position} {v : Nat},
    l.Pairwise (fun e e' => e.1 = e'.1 → e.2 < e'.2) →
    vLookup l p = some v → ∀ e ∈ l, e.1 = p → v ≤ e.2 := by
  intro l
  induction l with
  | nil => intro p v _ h; simp [vLookup] at h
  | cons a l ih =>
    intro p v hpw h e he hkey
    obtain ⟨q, w⟩ := a
    obtain ⟨hhead, htail⟩ := List.pairwise_cons.1 hpw
    rw [vLookup_cons] at h
    split_ifs at h with hpq
    · subst hpq
      obtain rfl : w = v := by simpa using h
      rcases List.mem_cons.1 he with rfl | he
      · exact le_refl _
      · exact le_of_lt (hhead e he hkey.symm)
    · rcases List.mem_cons.1 he with rfl | he
      · exact absurd hkey.symm hpq
      · exact ih htail h e he hkey

/-- The number of distinct keys of an association list. -/
def keyCount (l : List (Position × Nat)) : Nat := (l.map Prod.fst).dedup.length

theorem keyCount_cons_of_mem {l : List (Position × Nat)} {p : Position}
    (v : Nat) (h : p ∈ l.map Prod.fst) : keyCount ((p, v) :: l) = keyCount l := by
  simp [keyCount, List.dedup_cons_of_mem h]

theorem keyCount_cons_of_not_mem {l : List (Position × Nat)} {p : Position}
    (v : Nat) (h : p ∉ l.map Prod.fst) :
    keyCount ((p, v) :: l) = keyCount l + 1 := by
  simp [keyCount, List.dedup_cons_of_not_mem h]

theorem keyCount_le_cons (e : Position × Nat) (l : List (Position × Nat)) :
    keyCount l ≤ keyCount (e :: l) := by
  obtain ⟨p, v⟩ := e
  by_cases h : p ∈ l.map Prod.fst
  · rw [keyCount_cons_of_mem v h]
  · rw [keyCount_cons_of_not_mem v h]; omega

theorem kStep_symm {p q : Position} (h : KStep p q) : KStep q p := by
  have h8 := (kStep_iff p q).1 h
  rw [kStep_iff]
  omega

theorem stepTo_ne {p : Position} {d : Int × Int} (hd : d ∈ knightMoves) :
    stepTo p d ≠ p := by
  intro h
  have h1 : p.row + d.1 = p.row := congrArg Position.row h
  have h2 : p.col + d.2 = p.col := congrArg Position.col h
  simp only [knightMoves, List.mem_cons, List.not_mem_nil, or_false] at hd
  rcases hd with rfl | rfl | rfl | rfl | rfl | rfl | rfl | rfl <;> omega

/-- Appending two rooted valid paths. -/
theorem reachV_append {s : KnightBishopSolver} {x y z : Position} {m n : Nat}
    (h1 : ReachV s x y m) (h2 : ReachV s y z n) : ReachV s x z (m + n) := by
  induction h2 with
  | refl => exact h1
  | step hc hs hv ih => exact ReachV.step ih hs hv

theorem reachV_node_valid {s : KnightBishopSolver} {a q : Position} {n : Nat}
    (h : ReachV s a q n) : q = a ∨ isValidPosition s q = true := by
  cases h with
  | refl => exact Or.inl rfl
  | step _ _ hv => exact Or.inr hv

/-- A valid path can be walked backwards when the start square is valid
(the knight move set is closed under negation). -/
theorem reachV_symm {s : KnightBishopSolver} {a b : Position} {n : Nat}
    (ha : isValidPosition s a = true) (h : ReachV s a b n) : ReachV s b a n := by
  induction h with
  | refl => exact ReachV.refl
  | @step p q n' hc hs hv ih =>
    have hp : isValidPosition s p = true := by
      rcases reachV_node_valid hc with rfl | hvp
      · exact ha
      · exact hvp
    have h1 : ReachV s q p 1 := ReachV.step ReachV.refl (kStep_symm hs) hp
    have := reachV_append h1 ih
    simpa [Nat.add_comm] using this

theorem reachEndN_of_reachV {s : KnightBishopSolver} {a b : Position} {n : Nat}
    (h : ReachV s a b n) : ReachEndN s a b n := by
  cases h with
  | refl => rfl
  | step hc hs _ => exact ⟨_, hc, hs⟩

theorem reachV_of_reachEndN {s : KnightBishopSolver} {a b : Position} {n : Nat}
    (hb : isValidPosition s b = true) (h : ReachEndN s a b n) : ReachV s a b n := by
  cases n with
  | zero => rw [h]; exact ReachV.refl
  | succ n => obtain ⟨p, hc, hs⟩ := h; exact ReachV.step hc hs hb

/-- Splicing a forward path to `p` with a backward path from the end through
`p` yields a path to the end with valid intermediate squares. -/
theorem reachEndN_splice {s : KnightBishopSolver} {start endP : Position}
    (hend : isValidPosition s endP = true) :
    ∀ {p : Position} {k : Nat}, ReachV s endP p k →
    ∀ {n : Nat}, ReachV s start p n → ReachEndN s start endP (n + k) := by
  intro p k hback
  induction hback with
  | refl => intro n hf; exact reachEndN_of_reachV hf
  | @step q q' k' hc hs hv ih =>
    intro n hf
    have hq : isValidPosition s q = true := by
      rcases reachV_node_valid hc with rfl | hvq
      · exact hend
      · exact hvq
    have hf' : ReachV s start q (n + 1) := ReachV.step hf (kStep_symm hs) hq
    have := ih hf'
    have harith : n + 1 + k' = n + (k' + 1) := by omega
    rwa [harith] at this

/-- An upper bound on the total number of bindings either visited dict can
ever hold: distinct (position, value) pairs with bounded values. -/
def recBound (s : KnightBishopSolver) : Nat :=
  (s.rows.toNat * s.cols.toNat + 1) * (s.rows.toNat * s.cols.toNat + 2)

/-- The one-direction invariant of `bidirectional_bfs`, holding for the
forward side with `root = start` and for the backward side with `root = end`.
The map `v` models the direction's visited dict and `q` its pending queue. -/
structure SideInv (s : KnightBishopSolver) (root : Position)
    (q : List (Position × Nat)) (v : List (Position × Nat)) : Prop where
  root_rec : vLookup v root = some 0
  rec_sound : ∀ e ∈ v, ReachV s root e.1 e.2
  rec_valid : ∀ e ∈ v, e.1 = root ∨ isValidPosition s e.1 = true
  strict : v.Pairwise (fun e e' => e.1 = e'.1 → e.2 < e'.2)
  val_bound : ∀ e ∈ v, e.2 + 1 ≤ keyCount v
  q_sound : ∀ e ∈ q, ReachV s root e.1 e.2
  q_rec : ∀ e ∈ q, ∃ w, vLookup v e.1 = some w ∧ w ≤ e.2
  closed : ∀ p val, vLookup v p = some val →
      (∃ w, (p, w) ∈ q ∧ w ≤ val) ∨
      (∀ d ∈ knightMoves, isValidPosition s (stepTo p d) = true →
        vLookup v (stepTo p d) ≠ none)

theorem keyCount_le {s : KnightBishopSolver} {root : Position}
    {q v : List (Position × Nat)} (inv : SideInv s root q v) :
    keyCount v ≤ boardCap s + 1 := by
  refine length_le_of_nodup_valid (a := root) (List.nodup_dedup _) ?_
  intro p hp
  obtain ⟨e, he, rfl⟩ := List.mem_map.1 (List.mem_dedup.1 hp)
  exact inv.rec_valid e he

theorem SideInv.val_le {s : KnightBishopSolver} {root : Position}
    {q v : List (Position × Nat)} (inv : SideInv s root q v)
    {e : Position × Nat} (he : e ∈ v) : e.2 + 1 ≤ boardCap s + 1 :=
  le_trans (inv.val_bound e he) (keyCount_le inv)

/-- The bindings list of a side never exceeds `recBound`. -/
theorem SideInv.length_le {s : KnightBishopSolver} {root : Position}
    {q v : List (Position × Nat)} (inv : SideInv s root q v) :
    v.length ≤ recBound s := by
  have hnd : v.Nodup := by
    refine List.Pairwise.imp ?_ inv.strict
    intro e e' h heq
    subst heq
    exact absurd (h rfl) (lt_irrefl _)
  have hsub : v.toFinset ⊆
      (insert root (boardFinset s)) ×ˢ Finset.range (boardCap s + 2) := by
    intro e he
    have hev := List.mem_toFinset.1 he
    refine Finset.mem_product.2 ⟨?_, ?_⟩
    · rcases inv.rec_valid e hev with h | h
      · exact h ▸ Finset.mem_insert_self _ _
      · exact Finset.mem_insert_of_mem (valid_mem_boardFinset h)
    · have := inv.val_le hev
      simp only [Finset.mem_range]
      omega
  have hcard := Finset.card_le_card hsub
  rw [List.toFinset_card_of_nodup hnd] at hcard
  have h1 : ((insert root (boardFinset s)) ×ˢ
      Finset.range (boardCap s + 2)).card ≤ (boardCap s + 1) * (boardCap s + 2) := by
    rw [Finset.card_product, Finset.card_range]
    have h2 : (insert root (boardFinset s)).card ≤ boardCap s + 1 := by
      have := Finset.card_insert_le root (boardFinset s)
      have := card_boardFinset s
      omega
    exact Nat.mul_le_mul_right _ h2
  calc v.length ≤ _ := hcard
    _ ≤ (boardCap s + 1) * (boardCap s + 2) := h1
    _ = recBound s := by simp [recBound, boardCap]

/-- Once a side's queue is empty, its visited dict is closed under valid
knight moves, hence contains every square validly reachable from its root. -/
theorem SideInv.all_reached {s : KnightBishopSolver} {root : Position}
    {v : List (Position × Nat)} (inv : SideInv s root [] v)
    {x : Position} {n : Nat} (h : ReachV s root x n) : vLookup v x ≠ none := by
  induction h with
  | refl => rw [inv.root_rec]; simp
  | @step p x' n' hc hs hv ih =>
    obtain ⟨val, hval⟩ := Option.ne_none_iff_exists'.1 ih
    rcases inv.closed p val hval with ⟨w, hw, _⟩ | hcl
    · exact absurd hw (List.not_mem_nil _)
    · obtain ⟨d, hd, rfl⟩ := kStep_exists_move hs
      exact hcl d hd hv



theorem stepTo_fold (p : Position) (d : Int × Int) :
    (⟨p.row + d.1, p.col + d.2⟩ : Position) = stepTo p d := rfl

theorem vLookup_cons_ne_none {v : List (Position × Nat)} {x a : Position}
    {b : Nat} (h : vLookup v x ≠ none) : vLookup ((a, b) :: v) x ≠ none := by
  rw [vLookup_cons]
  split_ifs with hxa
  · simp
  · exact h

/-- The invariant during one direction's move loop of `bidirectional_bfs`:
`(pos, moves)` was popped and found current, moves still in `ms` are
unprocessed, and every processed move's target square is recorded if valid. -/
structure MidSide (s : KnightBishopSolver) (root pos : Position) (moves : Nat)
    (ms : List (Int × Int)) (q v : List (Position × Nat)) : Prop where
  root_rec : vLookup v root = some 0
  rec_sound : ∀ e ∈ v, ReachV s root e.1 e.2
  rec_valid : ∀ e ∈ v, e.1 = root ∨ isValidPosition s e.1 = true
  strict : v.Pairwise (fun e e' => e.1 = e'.1 → e.2 < e'.2)
  val_bound : ∀ e ∈ v, e.2 + 1 ≤ keyCount v
  q_sound : ∀ e ∈ q, ReachV s root e.1 e.2
  q_rec : ∀ e ∈ q, ∃ w, vLookup v e.1 = some w ∧ w ≤ e.2
  pos_rec : vLookup v pos = some moves
  ms_sub : ∀ d ∈ ms, d ∈ knightMoves
  pos_done : ∀ d ∈ knightMoves, d ∈ ms ∨
      (isValidPosition s (stepTo pos d) = true → vLookup v (stepTo pos d) ≠ none)
  closed : ∀ p val, vLookup v p = some val → p ≠ pos →
      (∃ w, (p, w) ∈ q ∧ w ≤ val) ∨
      (∀ d ∈ knightMoves, isValidPosition s (stepTo p d) = true →
        vLookup v (stepTo p d) ≠ none)

/-- Recording a strictly improved (or fresh) binding for a valid square and
enqueueing it preserves the mid-loop invariant. -/
theorem MidSide.push_side {s : KnightBishopSolver} {root pos : Position}
    {moves : Nat} {d : Int × Int} {ms : List (Int × Int)}
    {q v : List (Position × Nat)}
    (inv : MidSide s root pos moves (d :: ms) q v)
    (hval : isValidPosition s (stepTo pos d) = true)
    (himp : vLookup v (stepTo pos d) = none ∨
      ∃ vold, vLookup v (stepTo pos d) = some vold ∧ moves + 1 < vold) :
    MidSide s root pos moves ms (q ++ [(stepTo pos d, moves + 1)])
      ((stepTo pos d, moves + 1) :: v) := by
  have hd : d ∈ knightMoves := inv.ms_sub d (List.mem_cons_self d ms)
  have hnp : stepTo pos d ≠ pos := stepTo_ne hd
  have hposv : (pos, moves) ∈ v := vLookup_mem inv.pos_rec
  have hlt_next : ∀ e ∈ v, e.1 = stepTo pos d → moves + 1 < e.2 := by
    intro e he hkey
    rcases himp with hnone | ⟨vold, hsome, hlt⟩
    · exact absurd (List.mem_map.2 ⟨e, he, hkey⟩) (vLookup_eq_none.1 hnone)
    · have := vLookup_min_of_strict inv.strict hsome e he hkey
      omega
  have hnr : stepTo pos d ≠ root := by
    intro heq
    rcases himp with hnone | ⟨vold, hsome, hlt⟩
    · rw [heq, inv.root_rec] at hnone
      simp at hnone
    · rw [heq, inv.root_rec] at hsome
      obtain rfl : (0 : Nat) = vold := by simpa using hsome
      omega
  have hsound_next : ReachV s root (stepTo pos d) (moves + 1) :=
    ReachV.step (inv.rec_sound (pos, moves) hposv) (kStep_stepTo pos hd) hval
  refine
    { root_rec := ?_
      rec_sound := ?_
      rec_valid := ?_
      strict := ?_
      val_bound := ?_
      q_sound := ?_
      q_rec := ?_
      pos_rec := ?_
      ms_sub := fun d' hd' => inv.ms_sub d' (List.mem_cons_of_mem d hd')
      pos_done := ?_
      closed := ?_ }
  · rw [vLookup_cons, if_neg (fun h => hnr h.symm)]
    exact inv.root_rec
  · intro e he
    rcases List.mem_cons.1 he with rfl | he
    · exact hsound_next
    · exact inv.rec_sound e he
  · intro e he
    rcases List.mem_cons.1 he with rfl | he
    · exact Or.inr hval
    · exact inv.rec_valid e he
  · exact List.pairwise_cons.2 ⟨fun e he hkey => hlt_next e he hkey.symm, inv.strict⟩
  · intro e he
    rcases List.mem_cons.1 he with rfl | he
    · rcases himp with hnone | ⟨vold, hsome, hlt⟩
      · rw [keyCount_cons_of_not_mem _ (vLookup_eq_none.1 hnone)]
        have := inv.val_bound (pos, moves) hposv
        simp only at this ⊢
        omega
      · have hmem : stepTo pos d ∈ v.map Prod.fst := by
          by_contra hnm
          rw [vLookup_eq_none.2 hnm] at hsome
          simp at hsome
        rw [keyCount_cons_of_mem _ hmem]
        have := inv.val_bound (stepTo pos d, vold) (vLookup_mem hsome)
        simp only at this ⊢
        omega
    · have h1 := inv.val_bound e he
      have h2 := keyCount_le_cons (stepTo pos d, moves + 1) v
      omega
  · intro e he
    rcases List.mem_append.1 he with he | he
    · exact inv.q_sound e he
    · rw [List.mem_singleton.1 he]
      exact hsound_next
  · intro e he
    rcases List.mem_append.1 he with he | he
    · obtain ⟨w, hw, hwle⟩ := inv.q_rec e he
      by_cases hkey : e.1 = stepTo pos d
      · refine ⟨moves + 1, ?_, ?_⟩
        · rw [hkey, vLookup_cons, if_pos rfl]
        · rcases himp with hnone | ⟨vold, hsome, hlt⟩
          · rw [hkey] at hw
            rw [hnone] at hw
            simp at hw
          · rw [hkey] at hw
            rw [hsome] at hw
            obtain rfl : vold = w := by simpa using hw
            omega
      · exact ⟨w, by rw [vLookup_cons, if_neg hkey]; exact hw, hwle⟩
    · rw [List.mem_singleton.1 he]
      exact ⟨moves + 1, by rw [vLookup_cons, if_pos rfl], le_refl _⟩
  · rw [vLookup_cons, if_neg (Ne.symm hnp)]
    exact inv.pos_rec
  · intro d' hd'
    rcases inv.pos_done d' hd' with hin | hdone
    · rcases List.mem_cons.1 hin with rfl | hin
      · refine Or.inr fun _ => ?_
        rw [vLookup_cons, if_pos rfl]
        simp
      · exact Or.inl hin
    · exact Or.inr fun hv' => vLookup_cons_ne_none (hdone hv')
  · intro p val hp hppos
    rw [vLookup_cons] at hp
    split_ifs at hp with hpn
    · subst hpn
      obtain rfl : moves + 1 = val := by simpa using hp
      exact Or.inl ⟨moves + 1,
        List.mem_append.2 (Or.inr (List.mem_singleton.2 rfl)), le_refl _⟩
    · rcases inv.closed p val hp hppos with ⟨w, hw, hwle⟩ | hcl
      · exact Or.inl ⟨w, List.mem_append.2 (Or.inl hw), hwle⟩
      · exact Or.inr fun d' hd' hv' => vLookup_cons_ne_none (hcl d' hd' hv')

/-- A skipped move (invalid target, or target not strictly improved)
preserves the mid-loop invariant. -/
theorem MidSide.skip_side {s : KnightBishopSolver} {root pos : Position}
    {moves : Nat} {d : Int × Int} {ms : List (Int × Int)}
    {q v : List (Position × Nat)}
    (inv : MidSide s root pos moves (d :: ms) q v)
    (hdone : isValidPosition s (stepTo pos d) = true →
      vLookup v (stepTo pos d) ≠ none) :
    MidSide s root pos moves ms q v :=
  { inv with
    ms_sub := fun d' hd' => inv.ms_sub d' (List.mem_cons_of_mem d hd')
    pos_done := by
      intro d' hd'
      rcases inv.pos_done d' hd' with hin | hdone'
      · rcases List.mem_cons.1 hin with rfl | hin
        · exact Or.inr hdone
        · exact Or.inl hin
      · exact Or.inr hdone' }

/-- If the move loop returns early then the returned total is the sum of a
valid one-longer path on this side and a recorded binding of the other side. -/
theorem bbExpand_error {s : KnightBishopSolver} {root pos : Position}
    {moves : Nat} (hsound : ReachV s root pos moves) :
    ∀ {ms : List (Int × Int)} {q v other : List (Position × Nat)} {t : Int},
    (∀ d ∈ ms, d ∈ knightMoves) →
    bbExpand s pos moves ms q v other = .error t →
    ∃ next w, isValidPosition s next = true ∧
      ReachV s root next (moves + 1) ∧ vLookup other next = some w ∧
      t = (moves : Int) + 1 + (w : Int) := by
  intro ms
  induction ms with
  | nil => intro q v other t _ h; simp [bbExpand] at h
  | cons d ms ih =>
    intro q v other t hsub h
    rw [bbExpand] at h
    simp only [stepTo_fold] at h
    by_cases hval : isValidPosition s (stepTo pos d) = true
    · rw [if_pos hval] at h
      have hfound : ∀ w, vLookup other (stepTo pos d) = some w →
          (Except.error ((moves : Int) + 1 + (w : Int)) : Except Int (List (Position × Nat) × List (Position × Nat))) = .error t →
          ∃ next w', isValidPosition s next = true ∧
            ReachV s root next (moves + 1) ∧ vLookup other next = some w' ∧
            t = (moves : Int) + 1 + (w' : Int) := by
        intro w hlook2 heq
        obtain rfl : (moves : Int) + 1 + (w : Int) = t := by simpa using heq
        exact ⟨stepTo pos d, w, hval,
          ReachV.step hsound
            (kStep_stepTo pos (hsub d (List.mem_cons_self d ms))) hval,
          hlook2, rfl⟩
      cases hlook : vLookup v (stepTo pos d) with
      | none =>
        simp only [hlook, eq_self_iff_true, if_true] at h
        cases hlook2 : vLookup other (stepTo pos d) with
        | some w =>
          rw [hlook2] at h
          exact hfound w hlook2 h
        | none =>
          rw [hlook2] at h
          exact ih (fun d' hd' => hsub d' (List.mem_cons_of_mem d hd')) h
      | some vold =>
        simp only [hlook, decide_eq_true_eq] at h
        by_cases hlt : moves + 1 < vold
        · rw [if_pos hlt] at h
          cases hlook2 : vLookup other (stepTo pos d) with
          | some w =>
            rw [hlook2] at h
            exact hfound w hlook2 h
          | none =>
            rw [hlook2] at h
            exact ih (fun d' hd' => hsub d' (List.mem_cons_of_mem d hd')) h
        · rw [if_neg hlt] at h
          exact ih (fun d' hd' => hsub d' (List.mem_cons_of_mem d hd')) h
    · rw [if_neg hval] at h
      exact ih (fun d' hd' => hsub d' (List.mem_cons_of_mem d hd')) h

/-- If the move loop finishes, the mid-loop invariant carries to its end, the
queue and dict grow in lockstep, and every fresh binding's square was absent
from the other side's dict. -/
theorem bbExpand_ok {s : KnightBishopSolver} {root pos : Position}
    {moves : Nat} :
    ∀ {ms : List (Int × Int)} {q v other q' v' : List (Position × Nat)},
    MidSide s root pos moves ms q v →
    bbExpand s pos moves ms q v other = .ok (q', v') →
    MidSide s root pos moves [] q' v' ∧
    (∀ p, vLookup v' p ≠ none → vLookup v p ≠ none ∨ vLookup other p = none) ∧
    ∃ k, q'.length = q.length + k ∧ v'.length = v.length + k := by
  intro ms
  induction ms with
  | nil =>
    intro q v other q' v' inv h
    rw [bbExpand] at h
    obtain ⟨rfl, rfl⟩ : q = q' ∧ v = v' := by simpa [eq_comm] using h
    exact ⟨inv, fun p hp => Or.inl hp, 0, by omega, by omega⟩
  | cons d ms ih =>
    intro q v other q' v' inv h
    rw [bbExpand] at h
    simp only [stepTo_fold] at h
    by_cases hval : isValidPosition s (stepTo pos d) = true
    · rw [if_pos hval] at h
      have hpush : vLookup other (stepTo pos d) = none →
          (vLookup v (stepTo pos d) = none ∨
            ∃ vold, vLookup v (stepTo pos d) = some vold ∧ moves + 1 < vold) →
          bbExpand s pos moves ms (q ++ [(stepTo pos d, moves + 1)])
            ((stepTo pos d, moves + 1) :: v) other = .ok (q', v') →
          MidSide s root pos moves [] q' v' ∧
          (∀ p, vLookup v' p ≠ none →
            vLookup v p ≠ none ∨ vLookup other p = none) ∧
          ∃ k, q'.length = q.length + k ∧ v'.length = v.length + k := by
        intro hlook2 himp' h'
        obtain ⟨minv, hnew, k, hk1, hk2⟩ := ih (inv.push_side hval himp') h'
        refine ⟨minv, ?_, k + 1, ?_, ?_⟩
        · intro p hp
          rcases hnew p hp with hp' | hp'
          · rw [vLookup_cons] at hp'
            split_ifs at hp' with hpn
            · subst hpn
              exact Or.inr hlook2
            · exact Or.inl hp'
          · exact Or.inr hp'
        · simp only [List.length_append, List.length_cons, List.length_nil] at hk1
          omega
        · simp only [List.length_cons] at hk2
          omega
      cases hlook : vLookup v (stepTo pos d) with
      | none =>
        simp only [hlook, eq_self_iff_true, if_true] at h
        cases hlook2 : vLookup other (stepTo pos d) with
        | some w => rw [hlook2] at h; simp at h
        | none =>
          rw [hlook2] at h
          exact hpush hlook2 (Or.inl hlook) h
      | some vold =>
        simp only [hlook, decide_eq_true_eq] at h
        by_cases hlt : moves + 1 < vold
        · rw [if_pos hlt] at h
          cases hlook2 : vLookup other (stepTo pos d) with
          | some w => rw [hlook2] at h; simp at h
          | none =>
            rw [hlook2] at h
            exact hpush hlook2 (Or.inr ⟨vold, hlook, hlt⟩) h
        · rw [if_neg hlt] at h
          have hdone : isValidPosition s (stepTo pos d) = true →
              vLookup v (stepTo pos d) ≠ none := by
            intro _
            rw [hlook]
            simp
          exact ih (inv.skip_side hdone) h
    · rw [if_neg hval] at h
      have hdone : isValidPosition s (stepTo pos d) = true →
          vLookup v (stepTo pos d) ≠ none := fun hv' => absurd hv' hval
      exact ih (inv.skip_side hdone) h



/-- Popping a current entry starts the move loop with the full move list. -/
theorem SideInv.pop_mid {s : KnightBishopSolver} {root pos : Position}
    {moves : Nat} {q v : List (Position × Nat)}
    (inv : SideInv s root ((pos, moves) :: q) v)
    (hcur : vLookup v pos = some moves) :
    MidSide s root pos moves knightMoves q v :=
  { root_rec := inv.root_rec
    rec_sound := inv.rec_sound
    rec_valid := inv.rec_valid
    strict := inv.strict
    val_bound := inv.val_bound
    q_sound := fun e he => inv.q_sound e (List.mem_cons_of_mem _ he)
    q_rec := fun e he => inv.q_rec e (List.mem_cons_of_mem _ he)
    pos_rec := hcur
    ms_sub := fun d hd => hd
    pos_done := fun d hd => Or.inl hd
    closed := by
      intro p val hp hppos
      rcases inv.closed p val hp with ⟨w, hw, hwle⟩ | hcl
      · rcases List.mem_cons.1 hw with heq | hw
        · exact absurd (congrArg Prod.fst heq) hppos
        · exact Or.inl ⟨w, hw, hwle⟩
      · exact Or.inr hcl }

/-- Popping a stale entry (dict strictly better) preserves the invariant. -/
theorem SideInv.pop_skip {s : KnightBishopSolver} {root pos : Position}
    {moves w : Nat} {q v : List (Position × Nat)}
    (inv : SideInv s root ((pos, moves) :: q) v)
    (hw : vLookup v pos = some w) (hlt : w < moves) :
    SideInv s root q v :=
  { root_rec := inv.root_rec
    rec_sound := inv.rec_sound
    rec_valid := inv.rec_valid
    strict := inv.strict
    val_bound := inv.val_bound
    q_sound := fun e he => inv.q_sound e (List.mem_cons_of_mem _ he)
    q_rec := fun e he => inv.q_rec e (List.mem_cons_of_mem _ he)
    closed := by
      intro p val hp
      rcases inv.closed p val hp with ⟨w', hw', hwle⟩ | hcl
      · rcases List.mem_cons.1 hw' with heq | hw'
        · obtain ⟨rfl, rfl⟩ : p = pos ∧ w' = moves := by
            exact ⟨congrArg Prod.fst heq, congrArg Prod.snd heq⟩
          rw [hp] at hw
          obtain rfl : val = w := by simpa using hw
          omega
        · exact Or.inl ⟨w', hw', hwle⟩
      · exact Or.inr hcl }

/-- After the move loop the side invariant is restored. -/
theorem MidSide.toSideInv {s : KnightBishopSolver} {root pos : Position}
    {moves : Nat} {q v : List (Position × Nat)}
    (inv : MidSide s root pos moves [] q v) : SideInv s root q v :=
  { root_rec := inv.root_rec
    rec_sound := inv.rec_sound
    rec_valid := inv.rec_valid
    strict := inv.strict
    val_bound := inv.val_bound
    q_sound := inv.q_sound
    q_rec := inv.q_rec
    closed := by
      intro p val hp
      by_cases hppos : p = pos
      · subst hppos
        refine Or.inr fun d hd hv' => ?_
        rcases inv.pos_done d hd with hin | hdone
        · exact absurd hin (List.not_mem_nil d)
        · exact hdone hv'
      · exact inv.closed p val hp hppos }

/-- Main loop correctness of `bidirectional_bfs`: with both invariants and
enough fuel the loop terminates with a value; `-1` only when no path exists,
and any other value is the length of an actual path with valid intermediate
squares. -/
theorem bbAux_spec (s : KnightBishopSolver) (start endP : Position)
    (hstart : isValidPosition s start = true)
    (hend : isValidPosition s endP = true) :
    ∀ (fuel : Nat) (fq bq fv bv : List (Position × Nat)),
    SideInv s start fq fv → SideInv s endP bq bv →
    (∀ p, vLookup fv p ≠ none → vLookup bv p = none) →
    fq.length + (recBound s - fv.length) + 1 ≤ fuel →
    ∃ r : Int, bbAux s fuel fq bq fv bv = some r ∧
      (r = -1 → ¬ ∃ n, ReachEndN s start endP n) ∧
      (r ≠ -1 → ∃ n : Nat, r = (n : Int) ∧ ReachEndN s start endP n) := by
  intro fuel
  induction fuel with
  | zero => intro fq bq fv bv _ _ _ hf; omega
  | succ fuel ih =>
    intro fq bq fv bv finv binv hdisj hf
    match fq, bq with
    | [], bq =>
      refine ⟨-1, rfl, fun _ => ?_, fun hr => absurd rfl hr⟩
      rintro ⟨n, hn⟩
      have hv := reachV_of_reachEndN hend hn
      have h1 : vLookup fv endP ≠ none := finv.all_reached hv
      have h2 := hdisj endP h1
      rw [binv.root_rec] at h2
      simp at h2
    | (pos, moves) :: fq, [] =>
      refine ⟨-1, rfl, fun _ => ?_, fun hr => absurd rfl hr⟩
      rintro ⟨n, hn⟩
      have hv := reachV_symm hstart (reachV_of_reachEndN hend hn)
      have h1 : vLookup bv start ≠ none := binv.all_reached hv
      have h2 : vLookup fv start ≠ none := by
        rw [finv.root_rec]; simp
      have := hdisj start h2
      exact h1 this
    | (pos, moves) :: fq, (bpos, bmoves) :: bq =>
      rw [bbAux]
      by_cases hskip : ((vLookup fv pos).any fun v => decide (v < moves)) = true
      · rw [if_pos hskip]
        obtain ⟨w, hw, hlt⟩ : ∃ w, vLookup fv pos = some w ∧ w < moves := by
          cases hlook : vLookup fv pos with
          | none => rw [hlook] at hskip; simp [Option.any] at hskip
          | some w =>
            rw [hlook] at hskip
            simp [Option.any] at hskip
            exact ⟨w, rfl, hskip⟩
        have finv' := finv.pop_skip hw hlt
        simp only [List.length_cons] at hf
        exact ih fq ((bpos, bmoves) :: bq) fv bv finv' binv hdisj (by omega)
      · rw [if_neg hskip]
        have hcur : vLookup fv pos = some moves := by
          obtain ⟨w, hw, hwle⟩ := finv.q_rec (pos, moves) (List.mem_cons_self _ _)
          have : ¬ w < moves := by
            intro hlt
            exact hskip (by rw [hw]; simpa [Option.any] using hlt)
          obtain rfl : w = moves := by omega
          exact hw
        have fmid := finv.pop_mid hcur
        have hfsound : ReachV s start pos moves :=
          finv.q_sound (pos, moves) (List.mem_cons_self _ _)
        cases hexp : bbExpand s pos moves knightMoves fq fv bv with
        | error t =>
          simp only [hexp]
          obtain ⟨next, w, hvn, hreachF, hlookB, rfl⟩ :=
            bbExpand_error hfsound (fun d hd => hd) hexp
          have hreachB : ReachV s endP next w :=
            binv.rec_sound (next, w) (vLookup_mem hlookB)
          have hpath : ReachEndN s start endP (moves + 1 + w) :=
            reachEndN_splice hend hreachB hreachF
          refine ⟨_, rfl, fun habs => by omega, fun _ => ⟨moves + 1 + w, ?_, hpath⟩⟩
          push_cast
          ring
        | ok fqv =>
          obtain ⟨fq', fv'⟩ := fqv
          simp only [hexp]
          obtain ⟨fmid', hnewF, k, hk1, hk2⟩ := bbExpand_ok fmid hexp
          have finv' := fmid'.toSideInv
          have hdisj' : ∀ p, vLookup fv' p ≠ none → vLookup bv p = none := by
            intro p hp
            rcases hnewF p hp with h | h
            · exact hdisj p h
            · exact h
          have hlenF : fv'.length ≤ recBound s := finv'.length_le
          simp only [List.length_cons] at hf
          by_cases hbskip : ((vLookup bv bpos).any fun v => decide (v < bmoves)) = true
          · rw [if_pos hbskip]
            obtain ⟨w, hw, hlt⟩ : ∃ w, vLookup bv bpos = some w ∧ w < bmoves := by
              cases hlook : vLookup bv bpos with
              | none => rw [hlook] at hbskip; simp [Option.any] at hbskip
              | some w =>
                rw [hlook] at hbskip
                simp [Option.any] at hbskip
                exact ⟨w, rfl, hbskip⟩
            have binv' := binv.pop_skip hw hlt
            exact ih fq' bq fv' bv finv' binv' hdisj' (by omega)
          · rw [if_neg hbskip]
            have hbcur : vLookup bv bpos = some bmoves := by
              obtain ⟨w, hw, hwle⟩ := binv.q_rec (bpos, bmoves) (List.mem_cons_self _ _)
              have : ¬ w < bmoves := by
                intro hlt
                exact hbskip (by rw [hw]; simpa [Option.any] using hlt)
              obtain rfl : w = bmoves := by omega
              exact hw
            have bmid := binv.pop_mid hbcur
            have hbsound : ReachV s endP bpos bmoves :=
              binv.q_sound (bpos, bmoves) (List.mem_cons_self _ _)
            cases hbexp : bbExpand s bpos bmoves knightMoves bq bv fv' with
            | error t =>
              simp only [hbexp]
              obtain ⟨next, w, hvn, hreachB, hlookF, rfl⟩ :=
                bbExpand_error hbsound (fun d hd => hd) hbexp
              have hreachF : ReachV s start next w :=
                finv'.rec_sound (next, w) (vLookup_mem hlookF)
              have hpath : ReachEndN s start endP (w + (bmoves + 1)) :=
                reachEndN_splice hend hreachB hreachF
              refine ⟨_, rfl, fun habs => by omega,
                fun _ => ⟨w + (bmoves + 1), ?_, hpath⟩⟩
              push_cast
              ring
            | ok bqv =>
              obtain ⟨bq', bv'⟩ := bqv
              simp only [hbexp]
              obtain ⟨bmid', hnewB, k', hk1', hk2'⟩ := bbExpand_ok bmid hbexp
              have binv' := bmid'.toSideInv
              have hdisj'' : ∀ p, vLookup fv' p ≠ none → vLookup bv' p = none := by
                intro p hp
                by_contra hb
                rcases hnewB p hb with h | h
                · exact h (hdisj' p hp)
                · exact hp h
              exact ih fq' bq' fv' bv' finv' binv' hdisj'' (by omega)



theorem SideInv.initial (s : KnightBishopSolver) (root : Position) :
    SideInv s root [(root, 0)] [(root, 0)] :=
  { root_rec := by rw [vLookup_cons, if_pos rfl]
    rec_sound := by
      intro e he
      rw [List.mem_singleton.1 he]
      exact ReachV.refl
    rec_valid := fun e he => Or.inl (congrArg Prod.fst (List.mem_singleton.1 he))
    strict := List.pairwise_singleton _ _
    val_bound := by
      intro e he
      rw [List.mem_singleton.1 he]
      simp [keyCount]
    q_sound := by
      intro e he
      rw [List.mem_singleton.1 he]
      exact ReachV.refl
    q_rec := by
      intro e he
      rw [List.mem_singleton.1 he]
      exact ⟨0, by rw [vLookup_cons, if_pos rfl], le_refl _⟩
    closed := by
      intro p val hp
      rw [vLookup_cons] at hp
      split_ifs at hp with hpr
      · subst hpr
        obtain rfl : (0 : Nat) = val := by simpa using hp
        exact Or.inl ⟨0, List.mem_singleton.2 rfl, le_refl _⟩
      · simp [vLookup] at hp }

/-- C5: for any board and bishop with valid start and end squares,
`bidirectional_bfs` returns `-1` exactly when `bfs` does, and any nonnegative
value it returns is the length of an actual path with valid intermediate
squares, hence at least the BFS optimum: the bidirectional search may
overestimate the optimum but never underestimates it. -/
theorem c5_bidirectional_vs_bfs (rows cols : Int) (bishop start endP : Position)
    (hstart : isValidPosition (mkSolver rows cols bishop) start = true)
    (hend : isValidPosition (mkSolver rows cols bishop) endP = true) :
    (bidirectionalBfs (mkSolver rows cols bishop) start endP = -1 ↔
      bfs (mkSolver rows cols bishop) start endP = -1) ∧
    (0 ≤ bidirectionalBfs (mkSolver rows cols bishop) start endP →
      bfs (mkSolver rows cols bishop) start endP ≤
        bidirectionalBfs (mkSolver rows cols bishop) start endP) := by
  set s := mkSolver rows cols bishop with hs
  by_cases heq : start = endP
  · subst heq
    constructor
    · simp [bidirectionalBfs, bfs]
    · intro _
      simp [bidirectionalBfs, bfs]
  · have finv : SideInv s start [(start, 0)] [(start, 0)] := SideInv.initial s start
    have binv : SideInv s endP [(endP, 0)] [(endP, 0)] := SideInv.initial s endP
    have hdisj : ∀ p, vLookup [(start, 0)] p ≠ none →
        vLookup [(endP, 0)] p = none := by
      intro p hp
      rw [vLookup_cons] at hp ⊢
      split_ifs at hp with hps
      · subst hps
        rw [if_neg heq]
        rfl
      · simp [vLookup] at hp
    have hfuel : ([(start, 0)] : List (Position × Nat)).length +
        (recBound s - ([(start, 0)] : List (Position × Nat)).length) + 1 ≤
        bbFuel s := by
      have hb : bbFuel s = recBound s + 2 * (s.rows.toNat * s.cols.toNat) + 7 := by
        unfold bbFuel recBound
        ring
      simp only [List.length_singleton]
      omega
    obtain ⟨r, hr, hneg, hpos⟩ := bbAux_spec s start endP hstart hend (bbFuel s)
      [(start, 0)] [(endP, 0)] [(start, 0)] [(endP, 0)] finv binv hdisj hfuel
    have hbb : bidirectionalBfs s start endP = r := by
      rw [bidirectionalBfs, if_neg heq, hr, Option.getD_some]
    constructor
    · constructor
      · intro h
        rw [hbb] at h
        exact (bfs_spec s start endP).2.mpr (hneg h)
      · intro hbfs
        rw [hbb]
        by_contra hrne
        obtain ⟨n, rfl, hpath⟩ := hpos hrne
        exact ((bfs_spec s start endP).2.mp hbfs) ⟨n, hpath⟩
    · intro hge
      rw [hbb] at hge ⊢
      have hrne : r ≠ -1 := by omega
      obtain ⟨n, rfl, hpath⟩ := hpos hrne
      have hne : {m | ReachEndN s start endP m}.Nonempty := ⟨n, hpath⟩
      have hleast : IsLeast {m | ReachEndN s start endP m}
          (sInf {m | ReachEndN s start endP m}) :=
        ⟨Nat.sInf_mem hne, fun x hx => Nat.sInf_le hx⟩
      rw [(bfs_spec s start endP).1 _ hleast]
      have := Nat.sInf_le hpath
      exact_mod_cast this

/-- Witness for C5 on the concrete 4×4 board with bishop (3, 2) and valid
start (0, 0) and end (1, 2). -/
theorem c5_bidirectional_vs_bfs_witness :
    isValidPosition (mkSolver 4 4 ⟨3, 2⟩) ⟨0, 0⟩ = true ∧
    isValidPosition (mkSolver 4 4 ⟨3, 2⟩) ⟨1, 2⟩ = true ∧
    (bidirectionalBfs (mkSolver 4 4 ⟨3, 2⟩) ⟨0, 0⟩ ⟨1, 2⟩ = -1 ↔
      bfs (mkSolver 4 4 ⟨3, 2⟩) ⟨0, 0⟩ ⟨1, 2⟩ = -1) :=
  ⟨by decide, by decide,
    (c5_bidirectional_vs_bfs 4 4 ⟨3, 2⟩ ⟨0, 0⟩ ⟨1, 2⟩ (by decide) (by decide)).1⟩



/-! ## IDA*: result classification and termination (claims C8, C2) -/

theorem idaCombine_ne_none :
    ∀ (l : List (Option (WithTop Int))) (acc : WithTop Int),
    (∀ o ∈ l, o ≠ none) → idaCombine l acc ≠ none := by
  intro l
  induction l with
  | nil => intro acc _; simp [idaCombine]
  | cons o l ih =>
    intro acc hl
    match o with
    | none => exact absurd rfl (hl none (List.mem_cons_self _ _))
    | some t =>
      rw [idaCombine]
      split_ifs with ht
      · simp
      · exact ih _ (fun o ho => hl o (List.mem_cons_of_mem _ ho))

/-- Every value the loop returns is negative or at most the running minimum. -/
theorem idaCombine_le_acc :
    ∀ (l : List (Option (WithTop Int))) (acc : WithTop Int) (t : WithTop Int),
    idaCombine l acc = some t → t < 0 ∨ t ≤ acc := by
  intro l
  induction l with
  | nil =>
    intro acc t h
    obtain rfl : acc = t := by simpa [idaCombine] using h
    exact Or.inr (le_refl _)
  | cons o l ih =>
    intro acc t h
    match o with
    | none => simp [idaCombine] at h
    | some t' =>
      rw [idaCombine] at h
      split_ifs at h with ht'
      · obtain rfl : t' = t := by simpa using h
        exact Or.inl ht'
      · rcases ih _ _ h with h1 | h1
        · exact Or.inl h1
        · exact Or.inr (le_trans h1 (min_le_left _ _))

/-- If all elements are defined and one is negative, the loop returns a
negative value. -/
theorem idaCombine_success :
    ∀ (l : List (Option (WithTop Int))) (acc : WithTop Int),
    (∀ o ∈ l, o ≠ none) →
    (∃ o ∈ l, ∃ z : WithTop Int, o = some z ∧ z < 0) →
    ∃ t, idaCombine l acc = some t ∧ t < 0 := by
  intro l
  induction l with
  | nil => rintro acc _ ⟨o, ho, -⟩; exact absurd ho (List.not_mem_nil o)
  | cons o l ih =>
    rintro acc hl ⟨o', ho', z, rfl, hz⟩
    match o with
    | none => exact absurd rfl (hl none (List.mem_cons_self _ _))
    | some t' =>
      rw [idaCombine]
      split_ifs with ht'
      · exact ⟨t', rfl, ht'⟩
      · rcases List.mem_cons.1 ho' with heq | ho'
        · obtain rfl : t' = z := by simpa using heq.symm
          exact absurd hz ht'
        · exact ih _ (fun o ho => hl o (List.mem_cons_of_mem _ ho))
            ⟨some z, ho', z, rfl, hz⟩

/-- With all elements defined and a designated element, the result is negative
or at most that element's value. -/
theorem idaCombine_le_elem :
    ∀ (l : List (Option (WithTop Int))) (acc : WithTop Int) (t0 : WithTop Int),
    (∀ o ∈ l, o ≠ none) → some t0 ∈ l →
    ∃ t, idaCombine l acc = some t ∧ (t < 0 ∨ t ≤ t0) := by
  intro l
  induction l with
  | nil => intro acc t0 _ h0; exact absurd h0 (List.not_mem_nil _)
  | cons o l ih =>
    intro acc t0 hl h0
    match o with
    | none => exact absurd rfl (hl none (List.mem_cons_self _ _))
    | some t' =>
      rw [idaCombine]
      split_ifs with ht'
      · exact ⟨t', rfl, Or.inl ht'⟩
      · rcases List.mem_cons.1 h0 with heq | h0
        · obtain rfl : t' = t0 := by simpa using heq.symm
          obtain ⟨t, ht⟩ := Option.ne_none_iff_exists'.1
            (idaCombine_ne_none l (min acc t')
              (fun o ho => hl o (List.mem_cons_of_mem _ ho)))
          rcases idaCombine_le_acc l (min acc t') t ht with h1 | h1
          · exact ⟨t, ht, Or.inl h1⟩
          · exact ⟨t, ht, Or.inr (le_trans h1 (min_le_right _ _))⟩
        · exact ih _ _ (fun o ho => hl o (List.mem_cons_of_mem _ ho)) h0

/-- A negative result of the loop is one of its elements. -/
theorem idaCombine_neg_mem :
    ∀ (l : List (Option (WithTop Int))) (acc : WithTop Int) (t : WithTop Int),
    ¬ acc < 0 → idaCombine l acc = some t → t < 0 → some t ∈ l := by
  intro l
  induction l with
  | nil =>
    intro acc t hacc h ht
    obtain rfl : acc = t := by simpa [idaCombine] using h
    exact absurd ht hacc
  | cons o l ih =>
    intro acc t hacc h ht
    match o with
    | none => simp [idaCombine] at h
    | some t' =>
      rw [idaCombine] at h
      split_ifs at h with ht'
      · obtain rfl : t' = t := by simpa using h
        exact List.mem_cons_self _ _
      · have hmin : ¬ min acc t' < 0 := fun hcon =>
          (min_lt_iff.1 hcon).elim hacc ht'
        exact List.mem_cons_of_mem _ (ih _ _ hmin h ht)

/-- Classification propagates through the minimum fold: non-early values stay
strictly above the bound and below the ceiling. -/
theorem idaCombine_classify {bound C : Int} :
    ∀ (l : List (Option (WithTop Int))) (acc : WithTop Int),
    (∀ o ∈ l, ∀ t : WithTop Int, o = some t →
      (t < 0 ∨ t = ⊤ ∨ ((bound : WithTop Int) < t ∧
        ∀ z : Int, t = (z : WithTop Int) → z ≤ C))) →
    (acc = ⊤ ∨ ((bound : WithTop Int) < acc ∧
      ∀ z : Int, acc = (z : WithTop Int) → z ≤ C)) →
    ∀ t, idaCombine l acc = some t →
      (t < 0 ∨ t = ⊤ ∨ ((bound : WithTop Int) < t ∧
        ∀ z : Int, t = (z : WithTop Int) → z ≤ C)) := by
  intro l
  induction l with
  | nil =>
    intro acc _ hacc t h
    obtain rfl : acc = t := by simpa [idaCombine] using h
    rcases hacc with h1 | h1
    · exact Or.inr (Or.inl h1)
    · exact Or.inr (Or.inr h1)
  | cons o l ih =>
    intro acc hl hacc t h
    match o with
    | none => simp [idaCombine] at h
    | some t' =>
      rw [idaCombine] at h
      split_ifs at h with ht'
      · obtain rfl : t' = t := by simpa using h
        exact Or.inl ht'
      · refine ih _ (fun o ho u hu => hl o (List.mem_cons_of_mem _ ho) u hu)
          ?_ t h
        have ht'' := hl (some t') (List.mem_cons_self _ _) t' rfl
        have hQ' : t' = ⊤ ∨ ((bound : WithTop Int) < t' ∧
            ∀ z : Int, t' = (z : WithTop Int) → z ≤ C) := by
          rcases ht'' with h1 | h1 | h1
          · exact absurd h1 ht'
          · exact Or.inl h1
          · exact Or.inr h1
        rcases min_choice acc t' with hmin | hmin
        · rw [hmin]; exact hacc
        · rw [hmin]; exact hQ'

/-- The recursion-depth fuel of `idaSearch` chosen in `idaStar` never runs
out: the path is duplicate-free and consists of the root plus valid squares,
so it can never grow past `boardCap + 1` entries. -/
theorem idaSearch_ne_none {s : KnightBishopSolver} {E a : Position} :
    ∀ (fuel : Nat) (path : List Position) (pos : Position) (g : Nat)
      (bound : Int),
    path.Nodup → (∀ p ∈ path, p = a ∨ isValidPosition s p = true) →
    boardCap s + 3 ≤ fuel + path.length →
    idaSearch s E fuel path pos g bound ≠ none := by
  intro fuel
  induction fuel with
  | zero =>
    intro path pos g bound hnd hval hlen
    have := length_le_of_nodup_valid hnd hval
    omega
  | succ fuel ih =>
    intro path pos g bound hnd hval hlen
    rw [idaSearch]
    split_ifs with h1 h2
    · simp
    · simp
    · refine idaCombine_ne_none _ _ ?_
      intro o ho
      obtain ⟨d, hd, rfl⟩ := List.mem_map.1 ho
      dsimp only
      split_ifs with h3
      · obtain ⟨hval3, hnot3⟩ := h3
        rw [stepTo_fold] at hval3 hnot3
        refine ih (path ++ [stepTo pos d]) (stepTo pos d) (g + 1) bound ?_ ?_ ?_
        · simp [List.nodup_append, List.disjoint_singleton, hnd, hnot3]
        · intro p hp
          rcases List.mem_append.1 hp with hp | hp
          · exact hval p hp
          · rw [List.mem_singleton.1 hp]
            exact Or.inr hval3
        · simp only [List.length_append, List.length_singleton]
          omega
      · simp

/-- Heuristic ceiling: an upper bound on the heuristic value from any root or
valid square to the end square. -/
def hCeil (s : KnightBishopSolver) (a E : Position) : Nat :=
  3 + s.rows.toNat + s.cols.toNat + a.row.natAbs + a.col.natAbs +
    E.row.natAbs + E.col.natAbs

theorem heuristic_le_hCeil {s : KnightBishopSolver} {a E p : Position}
    (hp : p = a ∨ isValidPosition s p = true) :
    knightDistanceHeuristic p E ≤ hCeil s a E := by
  have hrow : p.row.natAbs ≤ s.rows.toNat + a.row.natAbs := by
    rcases hp with rfl | hp
    · omega
    · simp only [isValidPosition, Bool.and_eq_true, decide_eq_true_eq] at hp
      omega
  have hcol : p.col.natAbs ≤ s.cols.toNat + a.col.natAbs := by
    rcases hp with rfl | hp
    · omega
    · simp only [isValidPosition, Bool.and_eq_true, decide_eq_true_eq] at hp
      omega
  have hdr : (p.row - E.row).natAbs ≤ p.row.natAbs + E.row.natAbs :=
    Int.natAbs_sub_le _ _
  have hdc : (p.col - E.col).natAbs ≤ p.col.natAbs + E.col.natAbs :=
    Int.natAbs_sub_le _ _
  have hh : knightDistanceHeuristic p E ≤
      3 + (p.row - E.row).natAbs + (p.col - E.col).natAbs := by
    unfold knightDistanceHeuristic
    dsimp only
    split_ifs <;> (try simp only [sup_le_iff]) <;> omega
  unfold hCeil
  omega

/-- Ceiling on every `f` value the search can produce as a new bound. -/
def fCeil (s : KnightBishopSolver) (a E : Position) : Nat :=
  boardCap s + hCeil s a E

/-- Classification of a search result: it is infinite, negative, or a strict
escalation of the bound that never exceeds `fCeil`. -/
theorem idaSearch_classify {s : KnightBishopSolver} {E a : Position} :
    ∀ (fuel : Nat) (path : List Position) (pos : Position) (g : Nat)
      (bound : Int) (t : WithTop Int),
    path.Nodup → (∀ p ∈ path, p = a ∨ isValidPosition s p = true) →
    pos ∈ path → g + 1 = path.length → (pos = E → 1 ≤ g) →
    idaSearch s E fuel path pos g bound = some t →
    (t < 0 ∨ t = ⊤ ∨ ((bound : WithTop Int) < t ∧
      ∀ z : Int, t = (z : WithTop Int) → z ≤ (fCeil s a E : Int))) := by
  intro fuel
  induction fuel with
  | zero => intro path pos g bound t _ _ _ _ _ h; simp [idaSearch] at h
  | succ fuel ih =>
    intro path pos g bound t hnd hval hpos hg hE h
    have hglen : g ≤ boardCap s := by
      have := length_le_of_nodup_valid hnd hval
      omega
    have hceil : knightDistanceHeuristic pos E ≤ hCeil s a E :=
      heuristic_le_hCeil (hval pos hpos)
    rw [idaSearch] at h
    split_ifs at h with h1 h2
    · obtain rfl : (((g : Int) + (knightDistanceHeuristic pos E : Int) : Int) :
          WithTop Int) = t := by simpa using h
      refine Or.inr (Or.inr ⟨?_, ?_⟩)
      · exact_mod_cast h1
      · intro z hz
        have hz' : (g : Int) + (knightDistanceHeuristic pos E : Int) = z := by
          exact_mod_cast hz
        unfold fCeil
        omega
    · obtain rfl : ((-(g : Int) : Int) : WithTop Int) = t := by simpa using h
      have hg1 := hE h2
      refine Or.inl ?_
      exact_mod_cast (by omega : -(g : Int) < (0 : Int))
    · refine idaCombine_classify _ _ ?_ (Or.inl rfl) t h
      intro o ho u hu
      obtain ⟨d, hd, rfl⟩ := List.mem_map.1 ho
      dsimp only at hu
      split_ifs at hu with h3
      · obtain ⟨hval3, hnot3⟩ := h3
        rw [stepTo_fold] at hval3 hnot3
        exact ih (path ++ [stepTo pos d]) (stepTo pos d) (g + 1) bound u
          (by simp [List.nodup_append, List.disjoint_singleton, hnd, hnot3])
          (fun p hp => by
            rcases List.mem_append.1 hp with hp | hp
            · exact hval p hp
            · rw [List.mem_singleton.1 hp]; exact Or.inr hval3)
          (by simp)
          (by simp only [List.length_append, List.length_singleton]; omega)
          (fun _ => by omega) hu
      · obtain rfl : (⊤ : WithTop Int) = u := by simpa using hu
        exact Or.inr (Or.inl rfl)



/-- The iterative-deepening outer loop always halts by itself: every kept
iteration strictly increases the bound, the bound never exceeds `fCeil`, and
the chosen outer fuel dominates that climb. -/
theorem idaStarAux_total (s : KnightBishopSolver) (a E : Position)
    (hne : a ≠ E) :
    ∀ (fuel : Nat) (bound : Int), 0 ≤ bound → bound ≤ (fCeil s a E : Int) →
    (fCeil s a E : Int) + 2 ≤ (fuel : Int) + bound →
    ∃ r : Int, idaStarAux s a E (idaInnerFuel s) fuel bound = some r := by
  intro fuel
  induction fuel with
  | zero =>
    intro bound h0 hle hfu
    simp only [Nat.cast_zero, zero_add] at hfu
    omega
  | succ fuel ih =>
    intro bound h0 hle hfu
    have hsearch : idaSearch s E (idaInnerFuel s) [a] a 0 bound ≠ none := by
      refine idaSearch_ne_none (a := a) _ _ _ _ _ (List.nodup_singleton a) ?_ ?_
      · intro p hp
        exact Or.inl (List.mem_singleton.1 hp)
      · simp [idaInnerFuel, boardCap]
    cases ht : idaSearch s E (idaInnerFuel s) [a] a 0 bound with
    | none => exact absurd ht hsearch
    | some t =>
      have hcl := idaSearch_classify (a := a) (idaInnerFuel s) [a] a 0 bound t
        (List.nodup_singleton a)
        (fun p hp => Or.inl (List.mem_singleton.1 hp))
        (List.mem_singleton.2 rfl) (by simp)
        (fun hEq => absurd hEq hne) ht
      rw [idaStarAux]
      cases t with
      | top =>
        refine ⟨-1, ?_⟩
        simp only [ht]
      | coe z =>
        simp only [ht]
        by_cases hz : z < 0
        · exact ⟨-z, by rw [if_pos hz]⟩
        · have hzb : bound < z ∧ z ≤ (fCeil s a E : Int) := by
            rcases hcl with h1 | h1 | h1
            · exact absurd (by exact_mod_cast h1) hz
            · exact absurd h1 (by simp)
            · refine ⟨by exact_mod_cast h1.1, h1.2 z rfl⟩
          obtain ⟨r, hr⟩ := ih z (by omega) hzb.2
            (by push_cast at hfu ⊢; omega)
          exact ⟨r, by rw [if_neg hz]; exact hr⟩

/-- C8: `ida_star` always terminates with a definite integer result.  Either
the start equals the end and 0 is returned at once, or the outer
iterative-deepening loop halts by itself — the fuel given to it in the
embedding is never exhausted, because each iteration either succeeds, returns
`-1` on an infinite minimum, or strictly increases the bound, and the bound is
bounded by `fCeil`. -/
theorem c8_ida_star_terminates (rows cols : Int) (bishop start endP : Position) :
    (start = endP ∧ idaStar (mkSolver rows cols bishop) start endP = 0) ∨
    (∃ r : Int,
      idaStarAux (mkSolver rows cols bishop) start endP
        (idaInnerFuel (mkSolver rows cols bishop))
        (idaOuterFuel (mkSolver rows cols bishop) start endP)
        ((knightDistanceHeuristic start endP : Nat) : Int) = some r ∧
      idaStar (mkSolver rows cols bishop) start endP = r) := by
  set s := mkSolver rows cols bishop with hs
  by_cases hne : start = endP
  · exact Or.inl ⟨hne, by rw [idaStar, if_pos hne]⟩
  · refine Or.inr ?_
    have hh : knightDistanceHeuristic start endP ≤ hCeil s start endP :=
      heuristic_le_hCeil (Or.inl rfl)
    have hof : fCeil s start endP + 5 ≤
        idaOuterFuel s start endP + 2 := by
      have hrows : s.rows = rows := rfl
      have hcols : s.cols = cols := rfl
      unfold fCeil hCeil idaOuterFuel boardCap
      omega
    obtain ⟨r, hr⟩ := idaStarAux_total s start endP hne
      (idaOuterFuel s start endP)
      ((knightDistanceHeuristic start endP : Nat) : Int)
      (by positivity) (by exact_mod_cast le_trans hh (by unfold fCeil; omega))
      (by omega)
    exact ⟨r, hr, by rw [idaStar, if_neg hne, hr, Option.getD_some]⟩



/-- The heuristic is goal-aware: it is positive between distinct squares. -/
theorem heuristic_pos {p t : Position} (h : p ≠ t) :
    1 ≤ knightDistanceHeuristic p t := by
  have hne : (p.row - t.row).natAbs ≠ 0 ∨ (p.col - t.col).natAbs ≠ 0 := by
    by_contra hcon
    push_neg at hcon
    exact h (position_ext (by omega) (by omega))
  unfold knightDistanceHeuristic
  dsimp only
  split_ifs with h1 h2 h3 h4
  · omega
  · omega
  · omega
  · omega
  · simp only [le_sup_iff]
    omega

/-- A valid path is in particular a free knight path. -/
theorem reachV_knightReach {s : KnightBishopSolver} {a p : Position} {n : Nat}
    (h : ReachV s a p n) : KnightReach a p n := by
  induction h with
  | refl => exact KnightReach.refl a
  | step _ hs _ ih => exact KnightReach.step ih hs

/-- A chain of knight moves through valid squares, written as the list of
squares after the root. -/
def ChainV (s : KnightBishopSolver) : Position → List Position → Prop
  | _, [] => True
  | a, q :: rest => (KStep a q ∧ isValidPosition s q = true) ∧ ChainV s q rest

theorem chainV_nil (s : KnightBishopSolver) (a : Position) : ChainV s a [] :=
  trivial

theorem chainV_cons (s : KnightBishopSolver) (a q : Position)
    (rest : List Position) :
    ChainV s a (q :: rest) ↔
      (KStep a q ∧ isValidPosition s q = true) ∧ ChainV s q rest := Iff.rfl

theorem getLastD_append {α : Type} :
    ∀ (u v : List α) (d : α), (u ++ v).getLastD d = v.getLastD (u.getLastD d) := by
  intro u
  induction u with
  | nil => intro v d; rfl
  | cons x u ih =>
    intro v d
    rw [List.cons_append, List.getLastD_cons, List.getLastD_cons, ih]

theorem getLastD_concat' {α : Type} (u : List α) (x d : α) :
    (u ++ [x]).getLastD d = x := by
  rw [getLastD_append]
  rfl

theorem chainV_append (s : KnightBishopSolver) :
    ∀ (u : List Position) (v : List Position) (a : Position),
    ChainV s a (u ++ v) ↔ ChainV s a u ∧ ChainV s (u.getLastD a) v := by
  intro u
  induction u with
  | nil => intro v a; simp [chainV_nil, List.getLastD]
  | cons q u ih =>
    intro v a
    rw [List.cons_append, chainV_cons, chainV_cons, ih, List.getLastD_cons]
    tauto

theorem chainV_reachV {s : KnightBishopSolver} :
    ∀ {c : List Position} {a : Position}, ChainV s a c →
    ReachV s a (c.getLastD a) c.length := by
  intro c
  induction c with
  | nil => intro a _; exact ReachV.refl
  | cons q rest ih =>
    intro a hc
    obtain ⟨⟨hs, hv⟩, hrest⟩ := (chainV_cons s a q rest).1 hc
    have h1 : ReachV s a q 1 := ReachV.step ReachV.refl hs hv
    have := reachV_append h1 (ih hrest)
    rw [List.getLastD_cons, List.length_cons]
    have harith : 1 + rest.length = rest.length + 1 := by omega
    rwa [harith] at this

theorem reachV_chainV {s : KnightBishopSolver} {a p : Position} {n : Nat}
    (h : ReachV s a p n) :
    ∃ c : List Position, ChainV s a c ∧ c.length = n ∧ c.getLastD a = p := by
  induction h with
  | refl => exact ⟨[], chainV_nil s a, rfl, rfl⟩
  | @step q q' m hc hs hv ih =>
    obtain ⟨c, hcc, hlen, hlast⟩ := ih
    refine ⟨c ++ [q'], ?_, by simp [hlen], getLastD_concat' _ _ _⟩
    rw [chainV_append]
    exact ⟨hcc, by rw [hlast]; exact ⟨⟨hs, hv⟩, trivial⟩⟩

/-- A list that is not duplicate-free has an element occurring at a split with
another occurrence further right. -/
theorem dup_decomp {α : Type} :
    ∀ {l : List α}, ¬ l.Nodup →
    ∃ (x : α) (p q : List α), l = p ++ x :: q ∧ x ∈ q := by
  intro l
  induction l with
  | nil => intro h; exact absurd List.nodup_nil h
  | cons a l ih =>
    intro h
    rw [List.nodup_cons] at h
    by_cases ha : a ∈ l
    · exact ⟨a, [], l, rfl, ha⟩
    · have hl : ¬ l.Nodup := fun hnd => h ⟨ha, hnd⟩
      obtain ⟨x, p, q, rfl, hx⟩ := ih hl
      exact ⟨x, a :: p, q, rfl, hx⟩

/-- Any chain can be shortened to a duplicate-free chain (root included) with
the same endpoint. -/
theorem chainV_shorten {s : KnightBishopSolver} (a : Position) :
    ∀ (n : Nat) (c : List Position), c.length ≤ n → ChainV s a c →
    ∃ c' : List Position, ChainV s a c' ∧ c'.length ≤ c.length ∧
      c'.getLastD a = c.getLastD a ∧ (a :: c').Nodup := by
  intro n
  induction n with
  | zero =>
    intro c hlen hc
    obtain rfl : c = [] := by
      cases c with
      | nil => rfl
      | cons x xs => simp at hlen
    exact ⟨[], hc, le_refl _, rfl, List.nodup_singleton a⟩
  | succ n ih =>
    intro c hlen hc
    by_cases hnd : (a :: c).Nodup
    · exact ⟨c, hc, le_refl _, rfl, hnd⟩
    · obtain ⟨x, p, q, hsplit, hxq⟩ := dup_decomp hnd
      obtain ⟨q₁, q₂, rfl⟩ := List.append_of_mem hxq
      cases p with
      | nil =>
        -- a :: c = x :: (q₁ ++ x :: q₂): the root itself reappears
        rw [List.nil_append] at hsplit
        obtain ⟨hx, hceq⟩ := List.cons.inj hsplit
        subst hx
        subst hceq
        have hcq : ChainV s a q₂ := by
          have h1 := ((chainV_append s (q₁ ++ [a]) q₂ a).1 (by
            rw [show (q₁ ++ [a]) ++ q₂ = q₁ ++ a :: q₂ by simp]
            exact hc)).2
          rwa [getLastD_concat'] at h1
        obtain ⟨c', h1, h2, h3, h4⟩ := ih q₂ (by
          simp only [List.length_append, List.length_cons, List.length_nil] at hlen ⊢
          omega) hcq
        refine ⟨c', h1, ?_, ?_, h4⟩
        · simp only [List.length_append, List.length_cons, List.length_nil]
          omega
        · rw [h3, getLastD_append, List.getLastD_cons]
      | cons a' p =>
        -- c = p ++ x :: (q₁ ++ x :: q₂): cut the loop between the two x's
        rw [List.cons_append] at hsplit
        obtain ⟨ha', hceq⟩ := List.cons.inj hsplit
        subst hceq
        have hsplit1 := (chainV_append s (p ++ [x]) (q₁ ++ x :: q₂) a).1 (by
          rw [show (p ++ [x]) ++ (q₁ ++ x :: q₂) = p ++ x :: (q₁ ++ x :: q₂)
            by simp]
          exact hc)
        rw [getLastD_concat'] at hsplit1
        have hsplit2 : ChainV s x q₂ := by
          have h2 := ((chainV_append s (q₁ ++ [x]) q₂ x).1 (by
            rw [show (q₁ ++ [x]) ++ q₂ = q₁ ++ x :: q₂ by simp]
            exact hsplit1.2)).2
          rwa [getLastD_concat'] at h2
        have hcshort : ChainV s a ((p ++ [x]) ++ q₂) := by
          rw [chainV_append, getLastD_concat']
          exact ⟨hsplit1.1, hsplit2⟩
        obtain ⟨c', h1, h2, h3, h4⟩ := ih ((p ++ [x]) ++ q₂) (by
          simp only [List.length_append, List.length_cons, List.length_nil] at hlen ⊢
          omega) hcshort
        refine ⟨c', h1, ?_, ?_, h4⟩
        · simp only [List.length_append, List.length_cons, List.length_nil] at h2 ⊢
          omega
        · rw [h3]
          rw [show p ++ x :: (q₁ ++ x :: q₂) = ((p ++ [x]) ++ (q₁ ++ [x])) ++ q₂
            by simp]
          rw [getLastD_append (p ++ [x]) q₂,
            getLastD_append ((p ++ [x]) ++ (q₁ ++ [x])) q₂,
            getLastD_append (p ++ [x]) (q₁ ++ [x]),
            getLastD_concat' q₁, getLastD_concat' p]

/-- From any valid path to a distinct target, extract a minimal-length simple
chain to it. -/
theorem exists_min_chain {s : KnightBishopSolver} {a E : Position}
    (hex : ∃ n, ReachV s a E n) :
    ∃ c : List Position, ChainV s a c ∧ c.getLastD a = E ∧ (a :: c).Nodup ∧
      IsLeast {n | ReachV s a E n} c.length := by
  have hleast : IsLeast {n | ReachV s a E n} (sInf {n | ReachV s a E n}) :=
    ⟨Nat.sInf_mem hex, fun x hx => Nat.sInf_le hx⟩
  obtain ⟨c₀, hc₀, hlen₀, hlast₀⟩ := reachV_chainV hleast.1
  obtain ⟨c, h1, h2, h3, h4⟩ := chainV_shorten a c₀.length c₀ (le_refl _) hc₀
  rw [hlast₀] at h3
  have hge : sInf {n | ReachV s a E n} ≤ c.length :=
    hleast.2 (by rw [← h3]; exact chainV_reachV h1)
  have hle : c.length ≤ sInf {n | ReachV s a E n} := by rw [← hlen₀]; exact h2
  have hlen : c.length = sInf {n | ReachV s a E n} := le_antisymm hle hge
  exact ⟨c, h1, h3, h4, hlen ▸ hleast⟩



/-- All squares of a chain are valid. -/
theorem chainV_nodes_valid {s : KnightBishopSolver} :
    ∀ {c : List Position} {a : Position}, ChainV s a c →
    ∀ p ∈ c, isValidPosition s p = true := by
  intro c
  induction c with
  | nil => intro a _ p hp; exact absurd hp (List.not_mem_nil p)
  | cons q rest ih =>
    intro a hc p hp
    obtain ⟨⟨hs, hv⟩, hrest⟩ := (chainV_cons s a q rest).1 hc
    rcases List.mem_cons.1 hp with rfl | hp
    · exact hv
    · exact ih hrest p hp

/-- A negative result of `search` reports a real valid path from the original
start to the end, of length at most the bound. -/
theorem idaSearch_sound {s : KnightBishopSolver} {a E : Position} :
    ∀ (fuel : Nat) (path : List Position) (pos : Position) (g : Nat)
      (bound : Int) (z : Int),
    ReachV s a pos g →
    idaSearch s E fuel path pos g bound = some ((z : Int) : WithTop Int) →
    z < 0 →
    ∃ m : Nat, z = -(m : Int) ∧ ReachV s a E m ∧ (m : Int) ≤ bound := by
  intro fuel
  induction fuel with
  | zero => intro path pos g bound z _ h _; simp [idaSearch] at h
  | succ fuel ih =>
    intro path pos g bound z hreach h hz
    rw [idaSearch] at h
    split_ifs at h with h1 h2
    · have hzz : (g : Int) + (knightDistanceHeuristic pos E : Int) = z := by
        have := h
        simp only [Option.some.injEq] at this
        exact_mod_cast this
      omega
    · have hzz : -(g : Int) = z := by
        have := h
        simp only [Option.some.injEq] at this
        exact_mod_cast this
      refine ⟨g, hzz ▸ rfl, h2 ▸ hreach, ?_⟩
      push_neg at h1
      have hh0 : (0 : Int) ≤ (knightDistanceHeuristic pos E : Int) := by
        positivity
      omega
    · have hmem := idaCombine_neg_mem _ _ _ not_top_lt h
        (by exact_mod_cast hz)
      obtain ⟨d, hd, helem⟩ := List.mem_map.1 hmem
      dsimp only at helem
      split_ifs at helem with h3
      · obtain ⟨hval3, -⟩ := h3
        rw [stepTo_fold] at hval3
        exact ih (path ++ [stepTo pos d]) (stepTo pos d) (g + 1) bound z
          (ReachV.step hreach (kStep_stepTo pos hd) hval3) helem hz
      · simp at helem

/-- Following any remaining valid chain to the end: the search result never
exceeds `g` plus the remaining chain length.  In particular, with the minimal
chain from the root, every finite escalation stays at most the optimum. -/
theorem idaSearch_progress {s : KnightBishopSolver} {a E : Position} :
    ∀ (rest : List Position) (fuel : Nat) (path : List Position)
      (pos : Position) (g : Nat) (bound : Int) (t : WithTop Int),
    ChainV s pos rest → rest.getLastD pos = E → rest.Nodup →
    (∀ p ∈ path, p ∉ rest) →
    path.Nodup → (∀ p ∈ path, p = a ∨ isValidPosition s p = true) →
    boardCap s + 3 ≤ fuel + path.length →
    idaSearch s E fuel path pos g bound = some t →
    t ≤ (((g + rest.length : Nat) : Int) : WithTop Int) := by
  intro rest
  induction rest with
  | nil =>
    intro fuel path pos g bound t hchain hlast _ _ _ _ _ h
    -- rest = []: pos itself is the end square
    cases fuel with
    | zero => simp [idaSearch] at h
    | succ fuel =>
      rw [idaSearch] at h
      split_ifs at h with h1 h2
      · obtain rfl : (((g : Int) + (knightDistanceHeuristic pos E : Int) : Int) :
            WithTop Int) = t := by simpa using h
        have hE : pos = E := hlast
        have hself : knightDistanceHeuristic pos E = 0 := by
          rw [← hE]
          unfold knightDistanceHeuristic
          simp
        simp only [List.length_nil, Nat.add_zero]
        have : (g : Int) + (knightDistanceHeuristic pos E : Int) ≤
            ((g : Nat) : Int) := by
          rw [hself]
          push_cast
          omega
        exact_mod_cast this
      · obtain rfl : ((-(g : Int) : Int) : WithTop Int) = t := by simpa using h
        simp only [List.length_nil, Nat.add_zero]
        have : (-(g : Int) : Int) ≤ ((g : Nat) : Int) := by omega
        exact_mod_cast this
      · exact absurd hlast h2
  | cons q rest ih =>
    intro fuel path pos g bound t hchain hlast hrnd havoid hnd hval hfuel h
    obtain ⟨⟨hs, hv⟩, hrest⟩ := (chainV_cons s pos q rest).1 hchain
    cases fuel with
    | zero =>
      have := length_le_of_nodup_valid hnd hval
      omega
    | succ fuel =>
      rw [idaSearch] at h
      split_ifs at h with h1 h2
      · obtain rfl : (((g : Int) + (knightDistanceHeuristic pos E : Int) : Int) :
            WithTop Int) = t := by simpa using h
        have hkr : KnightReach pos E (q :: rest).length := by
          have := chainV_reachV hchain
          rw [hlast] at this
          exact reachV_knightReach this
        have hadm := heuristic_admissible hkr
        have : (g : Int) + (knightDistanceHeuristic pos E : Int) ≤
            ((g + (q :: rest).length : Nat) : Int) := by
          push_cast
          omega
        exact_mod_cast this
      · obtain rfl : ((-(g : Int) : Int) : WithTop Int) = t := by simpa using h
        have : (-(g : Int) : Int) ≤ ((g + (q :: rest).length : Nat) : Int) := by
          push_cast
          omega
        exact_mod_cast this
      · -- follow the chain into q
        obtain ⟨d, hd, hq⟩ := kStep_exists_move hs
        have hqpath : q ∉ path := fun hmem =>
          havoid q hmem (List.mem_cons_self q rest)
        have hqrest : q ∉ rest := (List.nodup_cons.1 hrnd).1
        have hne_none : idaSearch s E fuel (path ++ [q]) q (g + 1) bound ≠
            none := by
          refine idaSearch_ne_none (a := a) fuel (path ++ [q]) q (g + 1)
            bound ?_ ?_ ?_
          · simp [List.nodup_append, List.disjoint_singleton, hnd, hqpath]
          · intro p hp
            rcases List.mem_append.1 hp with hp | hp
            · exact hval p hp
            · rw [List.mem_singleton.1 hp]
              exact Or.inr hv
          · simp only [List.length_append, List.length_singleton]
            omega
        obtain ⟨tq, htq⟩ := Option.ne_none_iff_exists'.1 hne_none
        have hmem : some tq ∈ knightMoves.map fun d =>
            let next : Position := ⟨pos.row + d.1, pos.col + d.2⟩
            if isValidPosition s next = true ∧ next ∉ path then
              idaSearch s E fuel (path ++ [next]) next (g + 1) bound
            else some (⊤ : WithTop Int) := by
          refine List.mem_map.2 ⟨d, hd, ?_⟩
          dsimp only
          rw [stepTo_fold, ← hq, if_pos ⟨hv, hqpath⟩]
          exact htq
        have hall : ∀ o ∈ knightMoves.map fun d =>
            let next : Position := ⟨pos.row + d.1, pos.col + d.2⟩
            if isValidPosition s next = true ∧ next ∉ path then
              idaSearch s E fuel (path ++ [next]) next (g + 1) bound
            else some (⊤ : WithTop Int), o ≠ none := by
          intro o ho
          obtain ⟨d', hd', rfl⟩ := List.mem_map.1 ho
          dsimp only
          split_ifs with h3
          · obtain ⟨hval3, hnot3⟩ := h3
            rw [stepTo_fold] at hval3 hnot3
            refine idaSearch_ne_none (a := a) fuel (path ++ [stepTo pos d'])
              (stepTo pos d') (g + 1) bound ?_ ?_ ?_
            · simp [List.nodup_append, List.disjoint_singleton, hnd, hnot3]
            · intro p hp
              rcases List.mem_append.1 hp with hp | hp
              · exact hval p hp
              · rw [List.mem_singleton.1 hp]
                exact Or.inr hval3
            · simp only [List.length_append, List.length_singleton]
              omega
          · simp
        obtain ⟨t', ht', hcase⟩ := idaCombine_le_elem _ (⊤ : WithTop Int) tq
          hall hmem
        obtain rfl : t' = t := by rw [ht'] at h; simpa using h
        have hRHS : (0 : WithTop Int) ≤
            (((g + (q :: rest).length : Nat) : Int) : WithTop Int) := by
          exact_mod_cast (by positivity : (0 : Int) ≤
            ((g + (q :: rest).length : Nat) : Int))
        rcases hcase with hneg | hle
        · exact le_trans (le_of_lt hneg) hRHS
        · refine le_trans hle ?_
          have htq_le := ih fuel (path ++ [q]) q (g + 1) bound tq hrest
            (by rwa [List.getLastD_cons] at hlast)
            (List.nodup_cons.1 hrnd).2
            (fun p hp => by
              rcases List.mem_append.1 hp with hp | hp
              · intro hcon
                exact havoid p hp (List.mem_cons_of_mem _ hcon)
              · rw [List.mem_singleton.1 hp]
                exact hqrest)
            (by simp [List.nodup_append, List.disjoint_singleton, hnd, hqpath])
            (fun p hp => by
              rcases List.mem_append.1 hp with hp | hp
              · exact hval p hp
              · rw [List.mem_singleton.1 hp]
                exact Or.inr hv)
            (by simp only [List.length_append, List.length_singleton]; omega)
            htq
          refine le_trans htq_le ?_
          have : ((g + 1 + rest.length : Nat) : Int) ≤
              ((g + (q :: rest).length : Nat) : Int) := by
            push_cast
            simp only [List.length_cons]
            omega
          exact_mod_cast this

/-- Any non-`-1` answer of the outer loop certifies a real path. -/
theorem idaStarAux_sound {s : KnightBishopSolver} {a E : Position} :
    ∀ (innerFuel fuel : Nat) (bound : Int) (r : Int),
    idaStarAux s a E innerFuel fuel bound = some r → r ≠ -1 →
    ∃ m : Nat, ReachV s a E m := by
  intro innerFuel fuel
  induction fuel with
  | zero => intro bound r h _; simp [idaStarAux] at h
  | succ fuel ih =>
    intro bound r h hr
    rw [idaStarAux] at h
    cases ht : idaSearch s E innerFuel [a] a 0 bound with
    | none =>
      simp only [ht] at h
      exact absurd h (by simp)
    | some t =>
      cases t with
      | top =>
        simp only [ht] at h
        obtain rfl : (-1 : Int) = r := by simpa using h
        exact absurd rfl hr
      | coe z =>
        simp only [ht] at h
        by_cases hz : z < 0
        · obtain ⟨m, -, hm, -⟩ := idaSearch_sound innerFuel [a] a 0 bound z
            ReachV.refl ht hz
          exact ⟨m, hm⟩
        · rw [if_neg hz] at h
          exact ih z r h hr

/-- With a minimal simple chain to the end, the outer loop converges exactly
to the optimum: the bound climbs to it and the final search succeeds with it. -/
theorem idaStarAux_converges {s : KnightBishopSolver} {a E : Position}
    {c : List Position}
    (hne : a ≠ E) (hchain : ChainV s a c) (hlast : c.getLastD a = E)
    (hnd : (a :: c).Nodup)
    (hleast : IsLeast {n | ReachV s a E n} c.length) :
    ∀ (fuel : Nat) (bound : Int), 0 ≤ bound → bound ≤ (c.length : Int) →
    (c.length : Int) < (fuel : Int) + bound →
    idaStarAux s a E (idaInnerFuel s) fuel bound = some (c.length : Int) := by
  have hcap : c.length + 1 ≤ boardCap s + 1 := by
    have := length_le_of_nodup_valid (s := s) (a := a) hnd (by
      intro p hp
      rcases List.mem_cons.1 hp with rfl | hp
      · exact Or.inl rfl
      · exact Or.inr (chainV_nodes_valid hchain p hp))
    simpa using this
  intro fuel
  induction fuel with
  | zero =>
    intro bound h0 hle hfu
    simp only [Nat.cast_zero, zero_add] at hfu
    omega
  | succ fuel ih =>
    intro bound h0 hle hfu
    have hsearch : idaSearch s E (idaInnerFuel s) [a] a 0 bound ≠ none := by
      refine idaSearch_ne_none (a := a) _ _ _ _ _ (List.nodup_singleton a) ?_ ?_
      · intro p hp
        exact Or.inl (List.mem_singleton.1 hp)
      · simp [idaInnerFuel, boardCap]
    cases ht : idaSearch s E (idaInnerFuel s) [a] a 0 bound with
    | none => exact absurd ht hsearch
    | some t =>
      have hprog : t ≤ ((c.length : Int) : WithTop Int) := by
        have := idaSearch_progress (a := a) c (idaInnerFuel s) [a] a 0 bound t
          hchain hlast ((List.nodup_cons.1 hnd).2)
          (fun p hp => by
            rw [List.mem_singleton.1 hp]
            exact (List.nodup_cons.1 hnd).1)
          (List.nodup_singleton a)
          (fun p hp => Or.inl (List.mem_singleton.1 hp))
          (by simp [idaInnerFuel, boardCap]) ht
        simpa using this
      have hcl := idaSearch_classify (a := a) (idaInnerFuel s) [a] a 0 bound t
        (List.nodup_singleton a)
        (fun p hp => Or.inl (List.mem_singleton.1 hp))
        (List.mem_singleton.2 rfl) (by simp)
        (fun hEq => absurd hEq hne) ht
      rw [idaStarAux]
      cases t with
      | top => exact absurd hprog (by simp)
      | coe z =>
        simp only [ht]
        have hzdd : z ≤ (c.length : Int) := by exact_mod_cast hprog
        by_cases hz : z < 0
        · obtain ⟨m, hzm, hm, hmb⟩ := idaSearch_sound (idaInnerFuel s) [a] a 0
            bound z ReachV.refl ht hz
          have hddm : c.length ≤ m := hleast.2 hm
          obtain rfl : z = -(m : Int) := hzm
          rw [if_pos hz]
          have : m = c.length := by omega
          subst this
          simp
        · have hzb : bound < z := by
            rcases hcl with h1 | h1 | h1
            · exact absurd (by exact_mod_cast h1) hz
            · exact absurd h1 (by simp)
            · exact_mod_cast h1.1
          rw [if_neg hz]
          exact ih z (by omega) hzdd (by push_cast at hfu ⊢; omega)

/-- `ida_star` agrees with `bfs` on every board with valid start and end
squares: with an existing path the outer loop converges to the optimum, and
with no path it ends with `-1` exactly as `bfs` does. -/
theorem ida_star_eq_bfs {s : KnightBishopSolver} {start endP : Position}
    (hstart : isValidPosition s start = true)
    (hend : isValidPosition s endP = true) :
    idaStar s start endP = bfs s start endP := by
  by_cases hne : start = endP
  · rw [idaStar, if_pos hne, bfs, if_pos hne]
  · have hsets : {n | ReachEndN s start endP n} = {n | ReachV s start endP n} := by
      ext n
      exact ⟨fun h => reachV_of_reachEndN hend h, fun h => reachEndN_of_reachV h⟩
    by_cases hex : ∃ n, ReachV s start endP n
    · obtain ⟨c, hc, hlast, hnd, hleast⟩ := exists_min_chain hex
      have hcap : c.length ≤ boardCap s := by
        have := length_le_of_nodup_valid (s := s) (a := start) hnd (by
          intro p hp
          rcases List.mem_cons.1 hp with rfl | hp
          · exact Or.inl rfl
          · exact Or.inr (chainV_nodes_valid hc p hp))
        simp only [List.length_cons] at this
        omega
      have hbfs : bfs s start endP = (c.length : Int) :=
        (bfs_spec s start endP).1 c.length (by rw [hsets]; exact hleast)
      have hb0 : knightDistanceHeuristic start endP ≤ c.length := by
        have h1 := chainV_reachV hc
        rw [hlast] at h1
        exact heuristic_admissible (reachV_knightReach h1)
      have hconv := idaStarAux_converges hne hc hlast hnd hleast
        (idaOuterFuel s start endP)
        ((knightDistanceHeuristic start endP : Int))
        (by positivity) (by exact_mod_cast hb0)
        (by
          have houter : boardCap s + 1 ≤ idaOuterFuel s start endP := by
            unfold idaOuterFuel boardCap
            omega
          omega)
      rw [idaStar, if_neg hne, hconv, Option.getD_some, hbfs]
    · have hbfs : bfs s start endP = -1 :=
        (bfs_spec s start endP).2.mpr (fun ⟨n, hn⟩ =>
          hex ⟨n, reachV_of_reachEndN hend hn⟩)
      have hh : knightDistanceHeuristic start endP ≤ hCeil s start endP :=
        heuristic_le_hCeil (Or.inl rfl)
      obtain ⟨r, hr⟩ := idaStarAux_total s start endP hne
        (idaOuterFuel s start endP)
        ((knightDistanceHeuristic start endP : Int))
        (by positivity)
        (by exact_mod_cast le_trans hh (by unfold fCeil; omega))
        (by
          have hof : fCeil s start endP + 2 ≤ idaOuterFuel s start endP := by
            unfold fCeil hCeil idaOuterFuel boardCap
            omega
          omega)
      have hr1 : r = -1 := by
        by_contra hcon
        exact hex (idaStarAux_sound _ _ _ _ hr hcon)
      rw [idaStar, if_neg hne, hr, Option.getD_some, hr1, hbfs]



theorem aEntryLt_trans {x y z : AEntry} (h1 : aEntryLt x y = true)
    (h2 : aEntryLt y z = true) : aEntryLt x z = true := by
  simp only [aEntryLt, decide_eq_true_eq] at h1 h2 ⊢
  omega

theorem aEntryLt_false_false {x y : AEntry} (h1 : aEntryLt x y = false)
    (h2 : aEntryLt y x = false) : x = y := by
  simp only [aEntryLt, decide_eq_false_iff_not] at h1 h2
  obtain ⟨f1, m1, p1⟩ := x
  obtain ⟨f2, m2, p2⟩ := y
  simp only at h1 h2
  have h3 : f1 = f2 ∧ m1 = m2 ∧ p1.row = p2.row ∧ p1.col = p2.col := by
    omega
  obtain ⟨rfl, rfl, hr, hc⟩ := h3
  rw [position_ext hr hc]

theorem aEntryLt_first {x y : AEntry} (h : aEntryLt x y = false) :
    y.1 ≤ x.1 := by
  simp only [aEntryLt, decide_eq_false_iff_not] at h
  omega

theorem minAEntry_mem : ∀ (x : AEntry) (xs : List AEntry),
    minAEntry x xs ∈ x :: xs := by
  intro x xs
  induction xs generalizing x with
  | nil => exact List.mem_singleton.2 rfl
  | cons y ys ih =>
    rw [minAEntry]
    rcases List.mem_cons.1 (ih (if aEntryLt y x then y else x)) with h | h
    · rw [h]
      split_ifs
      · exact List.mem_cons_of_mem _ (List.mem_cons_self _ _)
      · exact List.mem_cons_self _ _
    · exact List.mem_cons_of_mem _ (List.mem_cons_of_mem _ h)

theorem minAEntry_min : ∀ (x : AEntry) (xs : List AEntry) (e : AEntry),
    e ∈ x :: xs → aEntryLt e (minAEntry x xs) = false := by
  intro x xs
  induction xs generalizing x with
  | nil =>
    intro e he
    rw [List.mem_singleton.1 he, minAEntry]
    simp only [aEntryLt, decide_eq_false_iff_not]
    omega
  | cons y ys ih =>
    intro e he
    rw [minAEntry]
    by_cases hyx : aEntryLt y x = true
    · have hwq : (if aEntryLt y x = true then y else x) = y := if_pos hyx
      rw [hwq]
      have hyM : aEntryLt y (minAEntry y ys) = false := by
        have h0 := ih (if aEntryLt y x = true then y else x) _
          (List.mem_cons_self _ _)
        rwa [hwq] at h0
      have hxM : aEntryLt x (minAEntry y ys) = false := by
        cases hex : aEntryLt x (minAEntry y ys) with
        | false => rfl
        | true =>
          have h1 := aEntryLt_trans hyx hex
          rw [h1] at hyM
          simp at hyM
      obtain heq | he' := List.mem_cons.1 he
      · rw [heq]; exact hxM
      · obtain heq | he'' := List.mem_cons.1 he'
        · rw [heq]; exact hyM
        · have h0 := ih (if aEntryLt y x = true then y else x) e
            (List.mem_cons_of_mem _ he'')
          rwa [hwq] at h0
    · have hwq : (if aEntryLt y x = true then y else x) = x := if_neg hyx
      rw [hwq]
      have hyx' : aEntryLt y x = false := by
        revert hyx; cases aEntryLt y x <;> simp
      have hxM : aEntryLt x (minAEntry x ys) = false := by
        have h0 := ih (if aEntryLt y x = true then y else x) _
          (List.mem_cons_self _ _)
        rwa [hwq] at h0
      have hyM : aEntryLt y (minAEntry x ys) = false := by
        cases hey : aEntryLt y (minAEntry x ys) with
        | false => rfl
        | true =>
          cases hxy : aEntryLt x y with
          | true =>
            have h1 := aEntryLt_trans hxy hey
            rw [h1] at hxM
            simp at hxM
          | false =>
            have hxeqy : x = y := aEntryLt_false_false hxy hyx'
            rw [← hxeqy] at hey
            rw [hey] at hxM
            simp at hxM
      obtain heq | he' := List.mem_cons.1 he
      · rw [heq]; exact hxM
      · obtain heq | he'' := List.mem_cons.1 he'
        · rw [heq]; exact hyM
        · have h0 := ih (if aEntryLt y x = true then y else x) e
            (List.mem_cons_of_mem _ he'')
          rwa [hwq] at h0

theorem popMin_none {l : List AEntry} : popMin l = none ↔ l = [] := by
  cases l with
  | nil => simp [popMin]
  | cons x xs => simp [popMin]

theorem popMin_eq {l : List AEntry} {e : AEntry} {rest : List AEntry}
    (h : popMin l = some (e, rest)) :
    e ∈ l ∧ rest = l.erase e ∧ ∀ e' ∈ l, aEntryLt e' e = false := by
  match l with
  | [] => simp [popMin] at h
  | x :: xs =>
    simp only [popMin, Option.some.injEq, Prod.mk.injEq] at h
    obtain ⟨rfl, rfl⟩ := h
    exact ⟨minAEntry_mem x xs, rfl, minAEntry_min x xs⟩

/-- Number of distinct keys is bounded by the board capacity plus one when all
keys are the root or valid squares. -/
theorem keyCount_le_of_valid {s : KnightBishopSolver} {a : Position}
    {g : List (Position × Nat)}
    (hv : ∀ e ∈ g, e.1 = a ∨ isValidPosition s e.1 = true) :
    keyCount g ≤ boardCap s + 1 := by
  refine length_le_of_nodup_valid (a := a) (List.nodup_dedup _) ?_
  intro p hp
  obtain ⟨e, he, rfl⟩ := List.mem_map.1 (List.mem_dedup.1 hp)
  exact hv e he

/-- Budget of one square in the termination potential of `a_star`: an unseen
square can still be assigned `boardCap + 2` distinct decreasing g-scores. -/
def aBudget (s : KnightBishopSolver) : Option Nat → Nat
  | none => boardCap s + 3
  | some v => v + 1

/-- Termination potential of the g-score dict: total remaining budget. -/
def aPot (s : KnightBishopSolver) (a : Position)
    (g : List (Position × Nat)) : Nat :=
  ∑ p ∈ insert a (boardFinset s), aBudget s (vLookup g p)

theorem aPot_le {s : KnightBishopSolver} {a : Position}
    {g : List (Position × Nat)}
    (hv : ∀ e ∈ g, e.1 = a ∨ isValidPosition s e.1 = true)
    (hb : ∀ e ∈ g, e.2 + 1 ≤ keyCount g) :
    aPot s a g ≤ (boardCap s + 1) * (boardCap s + 3) := by
  have hbud : ∀ p ∈ insert a (boardFinset s),
      aBudget s (vLookup g p) ≤ boardCap s + 3 := by
    intro p _
    cases hl : vLookup g p with
    | none => simp [aBudget]
    | some v =>
      have hmem := vLookup_mem hl
      have h1 := hb (p, v) hmem
      have h2 := keyCount_le_of_valid hv
      simp only [aBudget]
      omega
  calc aPot s a g ≤ ∑ _p ∈ insert a (boardFinset s), (boardCap s + 3) :=
        Finset.sum_le_sum hbud
    _ = (insert a (boardFinset s)).card * (boardCap s + 3) := by
        rw [Finset.sum_const, smul_eq_mul]
    _ ≤ (boardCap s + 1) * (boardCap s + 3) := by
        have h1 := Finset.card_insert_le a (boardFinset s)
        have h2 := card_boardFinset s
        exact Nat.mul_le_mul_right _ (by omega)

/-- Storing a strictly cheaper binding strictly decreases the potential. -/
theorem aPot_store {s : KnightBishopSolver} {a q : Position} {w : Nat}
    {g : List (Position × Nat)}
    (hq : q ∈ insert a (boardFinset s))
    (hlt : w + 1 < aBudget s (vLookup g q)) :
    aPot s a ((q, w) :: g) + 1 ≤ aPot s a g := by
  unfold aPot
  rw [← Finset.add_sum_erase _ _ hq, ← Finset.add_sum_erase _ _ hq]
  have hsame : ∑ p ∈ (insert a (boardFinset s)).erase q,
      aBudget s (vLookup ((q, w) :: g) p) =
      ∑ p ∈ (insert a (boardFinset s)).erase q, aBudget s (vLookup g p) := by
    refine Finset.sum_congr rfl ?_
    intro p hp
    have hpq : p ≠ q := (Finset.mem_erase.1 hp).1
    rw [vLookup_cons, if_neg hpq]
  rw [hsame]
  have hhit : vLookup ((q, w) :: g) q = some w := by
    rw [vLookup_cons, if_pos rfl]
  rw [hhit]
  simp only [aBudget] at hlt ⊢
  omega

/-- Invariant of the main loop of `a_star` (for `start ≠ end`). -/
structure AInv (s : KnightBishopSolver) (a E : Position)
    (openl : List AEntry) (g : List (Position × Nat))
    (closed : List Position) : Prop where
  g_ne : ∀ p v, vLookup g p = some v → p ≠ E
  g_valid : ∀ e ∈ g, e.1 = a ∨ isValidPosition s e.1 = true
  strict : g.Pairwise (fun e e' => e.1 = e'.1 → e.2 < e'.2)
  val_bound : ∀ e ∈ g, e.2 + 1 ≤ keyCount g
  open_f : ∀ e ∈ openl, e.1 = e.2.1 + knightDistanceHeuristic e.2.2 E
  open_g : ∀ e ∈ openl, ∃ v, vLookup g e.2.2 = some v ∧ v ≤ e.2.1
  open_sound : ∀ e ∈ openl, ReachV s a e.2.2 e.2.1
  key_inv : ∀ p v, vLookup g p = some v →
    (v + knightDistanceHeuristic p E, v, p) ∈ openl ∨
    (p ∈ closed ∧ ∀ d ∈ knightMoves, stepTo p d ≠ E ∧
      (isValidPosition s (stepTo p d) = true →
        ∃ w, vLookup g (stepTo p d) = some w ∧ w ≤ v + 1))
  closed_g : ∀ p ∈ closed, ∃ v, vLookup g p = some v

/-- Invariant during the move loop of `a_star`, after `(f, m, pos)` was popped
with `m` the current g-score of `pos`. -/
structure MidA (s : KnightBishopSolver) (a E pos : Position) (m : Nat)
    (ms : List (Int × Int)) (openl : List AEntry) (g : List (Position × Nat))
    (closed : List Position) : Prop where
  g_ne : ∀ p v, vLookup g p = some v → p ≠ E
  g_valid : ∀ e ∈ g, e.1 = a ∨ isValidPosition s e.1 = true
  strict : g.Pairwise (fun e e' => e.1 = e'.1 → e.2 < e'.2)
  val_bound : ∀ e ∈ g, e.2 + 1 ≤ keyCount g
  open_f : ∀ e ∈ openl, e.1 = e.2.1 + knightDistanceHeuristic e.2.2 E
  open_g : ∀ e ∈ openl, ∃ v, vLookup g e.2.2 = some v ∧ v ≤ e.2.1
  open_sound : ∀ e ∈ openl, ReachV s a e.2.2 e.2.1
  pos_cur : vLookup g pos = some m
  pos_reach : ReachV s a pos m
  ms_sub : ∀ d ∈ ms, d ∈ knightMoves
  pos_done : ∀ d ∈ knightMoves, d ∈ ms ∨ (stepTo pos d ≠ E ∧
      (isValidPosition s (stepTo pos d) = true →
        ∃ w, vLookup g (stepTo pos d) = some w ∧ w ≤ m + 1))
  key_inv : ∀ p v, vLookup g p = some v → p ≠ pos →
    (v + knightDistanceHeuristic p E, v, p) ∈ openl ∨
    (p ∈ closed ∧ ∀ d ∈ knightMoves, stepTo p d ≠ E ∧
      (isValidPosition s (stepTo p d) = true →
        ∃ w, vLookup g (stepTo p d) = some w ∧ w ≤ v + 1))
  closed_g : ∀ p ∈ closed, ∃ v, vLookup g p = some v



/-- Consing a binding never raises any key's current value when the new value
is no larger than the key's current one. -/
theorem vLookup_improve_cons {g : List (Position × Nat)} {q : Position}
    {ng : Nat} (himp : ∀ v, vLookup g q = some v → ng ≤ v) :
    ∀ p w, vLookup g p = some w →
    ∃ w', vLookup ((q, ng) :: g) p = some w' ∧ w' ≤ w := by
  intro p w h
  rw [vLookup_cons]
  split_ifs with hpq
  · exact ⟨ng, rfl, himp w (by rwa [hpq] at h)⟩
  · exact ⟨w, h, le_refl w⟩

/-- Processing one improving valid move of `a_star`: push the entry and store
the better g-score. -/
theorem MidA.push {s : KnightBishopSolver} {a E pos : Position} {m : Nat}
    {d : Int × Int} {ms : List (Int × Int)} {openl : List AEntry}
    {g : List (Position × Nat)} {closed : List Position}
    (mid : MidA s a E pos m (d :: ms) openl g closed)
    (hne3 : stepTo pos d ≠ E)
    (hval3 : isValidPosition s (stepTo pos d) = true)
    (himp : ∀ v, vLookup g (stepTo pos d) = some v → m + 1 < v) :
    MidA s a E pos m ms
      ((m + 1 + knightDistanceHeuristic (stepTo pos d) E, m + 1,
        stepTo pos d) :: openl)
      ((stepTo pos d, m + 1) :: g) closed := by
  have hd : d ∈ knightMoves := mid.ms_sub d (List.mem_cons_self _ _)
  have hqpos : stepTo pos d ≠ pos := stepTo_ne hd
  have himp' : ∀ p w, vLookup g p = some w →
      ∃ w', vLookup ((stepTo pos d, m + 1) :: g) p = some w' ∧ w' ≤ w :=
    vLookup_improve_cons (fun v hv => le_of_lt (himp v hv))
  have hkc : m + 1 ≤ keyCount g := by
    have := mid.val_bound (pos, m) (vLookup_mem mid.pos_cur)
    simpa using this
  refine
    { g_ne := ?_, g_valid := ?_, strict := ?_, val_bound := ?_, open_f := ?_
      open_g := ?_, open_sound := ?_, pos_cur := ?_, pos_reach := mid.pos_reach
      ms_sub := fun d' hd' => mid.ms_sub d' (List.mem_cons_of_mem _ hd')
      pos_done := ?_, key_inv := ?_, closed_g := ?_ }
  · intro p v hp
    rw [vLookup_cons] at hp
    split_ifs at hp with hpq
    · rw [hpq]; exact hne3
    · exact mid.g_ne p v hp
  · intro e he
    rcases List.mem_cons.1 he with heq | he
    · rw [heq]; exact Or.inr hval3
    · exact mid.g_valid e he
  · refine List.pairwise_cons.2 ⟨?_, mid.strict⟩
    intro e he hkey
    cases hlook : vLookup g (stepTo pos d) with
    | none =>
      exact absurd (List.mem_map.2 ⟨e, he, hkey.symm⟩)
        (vLookup_eq_none.1 hlook)
    | some v =>
      have h1 := himp v hlook
      have h2 := vLookup_min_of_strict mid.strict hlook e he hkey.symm
      omega
  · intro e he
    rcases List.mem_cons.1 he with heq | he
    · rw [heq]
      by_cases hmem : stepTo pos d ∈ g.map Prod.fst
      · rw [keyCount_cons_of_mem _ hmem]
        obtain ⟨v, hv⟩ := Option.ne_none_iff_exists'.1
          (fun hcon => (vLookup_eq_none.1 hcon) hmem)
        have h1 := himp v hv
        have h2 := mid.val_bound (stepTo pos d, v) (vLookup_mem hv)
        simp only
        omega
      · rw [keyCount_cons_of_not_mem _ hmem]
        simp only
        omega
    · have := mid.val_bound e he
      have := keyCount_le_cons (stepTo pos d, m + 1) g
      omega
  · intro e he
    rcases List.mem_cons.1 he with heq | he
    · rw [heq]
    · exact mid.open_f e he
  · intro e he
    rcases List.mem_cons.1 he with heq | he
    · rw [heq]
      exact ⟨m + 1, by rw [vLookup_cons, if_pos rfl], le_refl _⟩
    · obtain ⟨v, hv, hvle⟩ := mid.open_g e he
      obtain ⟨v', hv', hv'le⟩ := himp' _ _ hv
      exact ⟨v', hv', le_trans hv'le hvle⟩
  · intro e he
    rcases List.mem_cons.1 he with heq | he
    · rw [heq]
      exact ReachV.step mid.pos_reach (kStep_stepTo pos hd) hval3
    · exact mid.open_sound e he
  · rw [vLookup_cons, if_neg (fun hcon => hqpos hcon.symm)]
    exact mid.pos_cur
  · intro d' hd'
    rcases mid.pos_done d' hd' with hin | ⟨hn, hcl⟩
    · rcases List.mem_cons.1 hin with heq | hin
      · refine Or.inr ⟨by rw [heq]; exact hne3, fun _ => ?_⟩
        rw [heq]
        exact ⟨m + 1, by rw [vLookup_cons, if_pos rfl], le_refl _⟩
      · exact Or.inl hin
    · refine Or.inr ⟨hn, fun hv => ?_⟩
      obtain ⟨w, hw, hwle⟩ := hcl hv
      obtain ⟨w', hw', hw'le⟩ := himp' _ _ hw
      exact ⟨w', hw', le_trans hw'le hwle⟩
  · intro p v hp hppos
    rw [vLookup_cons] at hp
    split_ifs at hp with hpq
    · obtain rfl : m + 1 = v := by simpa using hp
      rw [hpq]
      exact Or.inl (List.mem_cons_self _ _)
    · rcases mid.key_inv p v hp hppos with hopen | ⟨hc, hcl⟩
      · exact Or.inl (List.mem_cons_of_mem _ hopen)
      · refine Or.inr ⟨hc, fun d'' hd'' => ?_⟩
        obtain ⟨hn, himpl⟩ := hcl d'' hd''
        refine ⟨hn, fun hv => ?_⟩
        obtain ⟨w, hw, hwle⟩ := himpl hv
        obtain ⟨w', hw', hw'le⟩ := himp' _ _ hw
        exact ⟨w', hw', le_trans hw'le hwle⟩
  · intro p hp
    obtain ⟨v, hv⟩ := mid.closed_g p hp
    obtain ⟨w', hw', -⟩ := himp' _ _ hv
    exact ⟨w', hw'⟩

/-- Processing a non-improving valid move: the state is unchanged and the
move's target is already recorded no worse than `m + 1`. -/
theorem MidA.skip_stale {s : KnightBishopSolver} {a E pos : Position} {m : Nat}
    {d : Int × Int} {ms : List (Int × Int)} {openl : List AEntry}
    {g : List (Position × Nat)} {closed : List Position}
    (mid : MidA s a E pos m (d :: ms) openl g closed)
    (hne3 : stepTo pos d ≠ E) {v0 : Nat}
    (hv0 : vLookup g (stepTo pos d) = some v0) (hle : v0 ≤ m + 1) :
    MidA s a E pos m ms openl g closed := by
  refine
    { g_ne := mid.g_ne, g_valid := mid.g_valid, strict := mid.strict
      val_bound := mid.val_bound, open_f := mid.open_f, open_g := mid.open_g
      open_sound := mid.open_sound, pos_cur := mid.pos_cur
      pos_reach := mid.pos_reach
      ms_sub := fun d' hd' => mid.ms_sub d' (List.mem_cons_of_mem _ hd')
      pos_done := ?_, key_inv := mid.key_inv, closed_g := mid.closed_g }
  intro d' hd'
  rcases mid.pos_done d' hd' with hin | hdone
  · rcases List.mem_cons.1 hin with heq | hin
    · refine Or.inr ⟨by rw [heq]; exact hne3, fun _ => ?_⟩
      rw [heq]
      exact ⟨v0, hv0, hle⟩
    · exact Or.inl hin
  · exact Or.inr hdone

/-- Processing an invalid move: the state is unchanged. -/
theorem MidA.skip_invalid {s : KnightBishopSolver} {a E pos : Position}
    {m : Nat} {d : Int × Int} {ms : List (Int × Int)} {openl : List AEntry}
    {g : List (Position × Nat)} {closed : List Position}
    (mid : MidA s a E pos m (d :: ms) openl g closed)
    (hne3 : stepTo pos d ≠ E)
    (hval3 : isValidPosition s (stepTo pos d) = false) :
    MidA s a E pos m ms openl g closed := by
  refine
    { g_ne := mid.g_ne, g_valid := mid.g_valid, strict := mid.strict
      val_bound := mid.val_bound, open_f := mid.open_f, open_g := mid.open_g
      open_sound := mid.open_sound, pos_cur := mid.pos_cur
      pos_reach := mid.pos_reach
      ms_sub := fun d' hd' => mid.ms_sub d' (List.mem_cons_of_mem _ hd')
      pos_done := ?_, key_inv := mid.key_inv, closed_g := mid.closed_g }
  intro d' hd'
  rcases mid.pos_done d' hd' with hin | hdone
  · rcases List.mem_cons.1 hin with heq | hin
    · refine Or.inr ⟨by rw [heq]; exact hne3, fun hv => ?_⟩
      rw [heq] at hv
      rw [hv] at hval3
      simp at hval3
    · exact Or.inl hin
  · exact Or.inr hdone

/-- An early return of the move loop returns `m + 1` and the end square is one
knight move from `pos`. -/
theorem aStarExpand_error {s : KnightBishopSolver} {a E pos : Position}
    {m : Nat} :
    ∀ {ms : List (Int × Int)} {openl : List AEntry}
      {g : List (Position × Nat)} {closed : List Position} {r : Int},
    MidA s a E pos m ms openl g closed →
    aStarExpand s E pos m ms openl g = Except.error r →
    r = (m : Int) + 1 ∧ KStep pos E := by
  intro ms
  induction ms with
  | nil =>
    intro openl g closed r _ h
    simp [aStarExpand] at h
  | cons d ms ih =>
    intro openl g closed r mid h
    have hd : d ∈ knightMoves := mid.ms_sub d (List.mem_cons_self _ _)
    rw [aStarExpand] at h
    dsimp only at h
    split_ifs at h with h1 h2 h3
    · rw [stepTo_fold] at h1
      obtain rfl : (m : Int) + 1 = r := by simpa using h
      exact ⟨rfl, h1 ▸ kStep_stepTo pos hd⟩
    · rw [stepTo_fold] at h1 h2 h3 h
      have himp : ∀ v, vLookup g (stepTo pos d) = some v → m + 1 < v := by
        intro v hv
        rw [hv] at h3
        simpa using h3
      exact ih (mid.push h1 h2 himp) h
    · rw [stepTo_fold] at h1 h2 h3
      obtain ⟨v0, hv0, hle⟩ : ∃ v0, vLookup g (stepTo pos d) = some v0 ∧
          v0 ≤ m + 1 := by
        cases hlook : vLookup g (stepTo pos d) with
        | none => rw [hlook] at h3; simp at h3
        | some v =>
          rw [hlook] at h3
          simp only [decide_eq_true_eq] at h3
          exact ⟨v, rfl, by omega⟩
      exact ih (mid.skip_stale h1 hv0 hle) h
    · rw [stepTo_fold] at h1 h2
      exact ih (mid.skip_invalid h1 (by
        cases hval : isValidPosition s (stepTo pos d) with
        | false => rfl
        | true => exact absurd hval h2)) h

/-- Running the move loop to completion: the invariant is restored with all
moves processed, g-scores only improve, and the open-list growth is paid for
by the potential drop. -/
theorem aStarExpand_ok {s : KnightBishopSolver} {a E pos : Position} {m : Nat} :
    ∀ {ms : List (Int × Int)} {openl : List AEntry}
      {g : List (Position × Nat)} {closed : List Position}
      {openl' : List AEntry} {g' : List (Position × Nat)},
    MidA s a E pos m ms openl g closed →
    aStarExpand s E pos m ms openl g = Except.ok (openl', g') →
    MidA s a E pos m [] openl' g' closed ∧
    (∀ p w, vLookup g p = some w → ∃ w', vLookup g' p = some w' ∧ w' ≤ w) ∧
    openl'.length + aPot s a g' ≤ openl.length + aPot s a g := by
  intro ms
  induction ms with
  | nil =>
    intro openl g closed openl' g' mid h
    have hpair : openl = openl' ∧ g = g' := by
      have := h
      simp only [aStarExpand, Except.ok.injEq, Prod.mk.injEq] at this
      exact this
    obtain ⟨rfl, rfl⟩ := hpair
    exact ⟨mid, fun p w hw => ⟨w, hw, le_refl w⟩, le_refl _⟩
  | cons d ms ih =>
    intro openl g closed openl' g' mid h
    rw [aStarExpand] at h
    dsimp only at h
    rw [stepTo_fold] at h
    by_cases h1 : stepTo pos d = E
    · rw [if_pos h1] at h
      exact Except.noConfusion h
    · rw [if_neg h1] at h
      by_cases h2 : isValidPosition s (stepTo pos d) = true
      · rw [if_pos h2] at h
        have hpush : ∀ (himp : ∀ v, vLookup g (stepTo pos d) = some v →
              m + 1 < v),
            aStarExpand s E pos m ms
              ((m + 1 + knightDistanceHeuristic (stepTo pos d) E, m + 1,
                stepTo pos d) :: openl) ((stepTo pos d, m + 1) :: g) =
              Except.ok (openl', g') →
            MidA s a E pos m [] openl' g' closed ∧
            (∀ p w, vLookup g p = some w →
              ∃ w', vLookup g' p = some w' ∧ w' ≤ w) ∧
            openl'.length + aPot s a g' ≤ openl.length + aPot s a g := by
          intro himp hrec
          obtain ⟨hfinal, himpr, hmeas⟩ := ih (mid.push h1 h2 himp) hrec
          refine ⟨hfinal, ?_, ?_⟩
          · intro p w hw
            obtain ⟨w1, hw1, hle1⟩ :=
              vLookup_improve_cons (fun v hv => le_of_lt (himp v hv)) p w hw
            obtain ⟨w2, hw2, hle2⟩ := himpr p w1 hw1
            exact ⟨w2, hw2, le_trans hle2 hle1⟩
          · have hstore : aPot s a ((stepTo pos d, m + 1) :: g) + 1 ≤
                aPot s a g := by
              refine aPot_store
                (Finset.mem_insert_of_mem (valid_mem_boardFinset h2)) ?_
              cases hlook : vLookup g (stepTo pos d) with
              | none =>
                have hkc : m + 1 ≤ keyCount g := by
                  have := mid.val_bound (pos, m) (vLookup_mem mid.pos_cur)
                  simpa using this
                have hcap := keyCount_le_of_valid mid.g_valid
                simp only [aBudget]
                omega
              | some v =>
                have := himp v hlook
                simp only [aBudget]
                omega
            simp only [List.length_cons] at hmeas
            omega
        cases hlook : vLookup g (stepTo pos d) with
        | none =>
          simp only [hlook] at h
          rw [if_pos trivial] at h
          refine hpush (fun v hv => ?_) h
          rw [hv] at hlook
          exact Option.noConfusion hlook
        | some v =>
          simp only [hlook] at h
          by_cases h3 : m + 1 < v
          · rw [if_pos (decide_eq_true h3)] at h
            exact hpush (fun v' hv' => by
              rw [hv'] at hlook
              obtain rfl : v' = v := by simpa using hlook
              exact h3) h
          · rw [if_neg (fun hc => h3 (of_decide_eq_true hc))] at h
            exact ih (mid.skip_stale h1 hlook (by omega)) h
      · rw [if_neg h2] at h
        exact ih (mid.skip_invalid h1 (by
          revert h2
          cases isValidPosition s (stepTo pos d) <;> simp)) h

/-- After the move loop the main invariant holds with `pos` closed. -/
theorem MidA.toAInv {s : KnightBishopSolver} {a E pos : Position} {m : Nat}
    {openl : List AEntry} {g : List (Position × Nat)} {closed : List Position}
    (mid : MidA s a E pos m [] openl g closed) :
    AInv s a E openl g (pos :: closed) := by
  refine
    { g_ne := mid.g_ne, g_valid := mid.g_valid, strict := mid.strict
      val_bound := mid.val_bound, open_f := mid.open_f, open_g := mid.open_g
      open_sound := mid.open_sound, key_inv := ?_, closed_g := ?_ }
  · intro p v hp
    by_cases hppos : p = pos
    · subst hppos
      refine Or.inr ⟨List.mem_cons_self _ _, fun d hd => ?_⟩
      rcases mid.pos_done d hd with hin | hdone
      · exact absurd hin (List.not_mem_nil d)
      · obtain rfl : v = m := by
          have := mid.pos_cur
          rw [hp] at this
          simpa using this
        exact hdone
    · rcases mid.key_inv p v hp hppos with hopen | ⟨hc, hcl⟩
      · exact Or.inl hopen
      · exact Or.inr ⟨List.mem_cons_of_mem _ hc, hcl⟩
  · intro p hp
    rcases List.mem_cons.1 hp with rfl | hp
    · exact ⟨m, mid.pos_cur⟩
    · exact mid.closed_g p hp



/-- Popping a stale heap entry (the dict already knows better) keeps the
invariant. -/
theorem AInv.pop_stale {s : KnightBishopSolver} {a E : Position}
    {openl : List AEntry} {g : List (Position × Nat)} {closed : List Position}
    {f m : Nat} {p : Position} {rest : List AEntry}
    (inv : AInv s a E openl g closed)
    (hpop : popMin openl = some ((f, m, p), rest))
    {v : Nat} (hv : vLookup g p = some v) (hvm : v < m) :
    AInv s a E rest g closed := by
  obtain ⟨hmem, hrest, hmin⟩ := popMin_eq hpop
  subst hrest
  have hsub : openl.erase (f, m, p) ⊆ openl := List.erase_subset _ _
  refine
    { g_ne := inv.g_ne, g_valid := inv.g_valid, strict := inv.strict
      val_bound := inv.val_bound
      open_f := fun e he => inv.open_f e (hsub he)
      open_g := fun e he => inv.open_g e (hsub he)
      open_sound := fun e he => inv.open_sound e (hsub he)
      key_inv := ?_, closed_g := inv.closed_g }
  intro p' v' hp'
  rcases inv.key_inv p' v' hp' with hopen | hclosed
  · refine Or.inl ((List.mem_erase_of_ne ?_).2 hopen)
    intro hcon
    have hp'p : p' = p := congrArg (fun t : AEntry => t.2.2) hcon
    have hv'm : v' = m := congrArg (fun t : AEntry => t.2.1) hcon
    rw [hp'p] at hp'
    rw [hp'] at hv
    have : v' = v := by simpa using hv
    omega
  · exact Or.inr hclosed

/-- Popping a live entry: it carries the current g-score of its square, and
the move loop starts with the full move list. -/
theorem AInv.pop_expand {s : KnightBishopSolver} {a E : Position}
    {openl : List AEntry} {g : List (Position × Nat)} {closed : List Position}
    {f m : Nat} {p : Position} {rest : List AEntry}
    (inv : AInv s a E openl g closed)
    (hpop : popMin openl = some ((f, m, p), rest))
    (hnoskip : ¬(p ∈ closed ∧ ∃ v, vLookup g p = some v ∧ v < m)) :
    MidA s a E p m knightMoves rest g closed := by
  obtain ⟨hmem, hrest, hmin⟩ := popMin_eq hpop
  obtain ⟨v, hv, hvm⟩ := inv.open_g (f, m, p) hmem
  simp only at hv hvm
  have hcur : vLookup g p = some m := by
    rcases Nat.lt_or_ge v m with hlt | hge
    · exfalso
      have hpc : p ∉ closed := fun hc => hnoskip ⟨hc, v, hv, hlt⟩
      rcases inv.key_inv p v hv with hopen | ⟨hc, -⟩
      · have hminE := hmin _ hopen
        have hfe : f = m + knightDistanceHeuristic p E := by
          have := inv.open_f (f, m, p) hmem
          simpa using this
        have htrue : aEntryLt (v + knightDistanceHeuristic p E, v, p)
            (f, m, p) = true := by
          simp only [aEntryLt, decide_eq_true_eq]
          left
          omega
        rw [htrue] at hminE
        exact Bool.noConfusion hminE
      · exact hpc hc
    · obtain rfl : v = m := le_antisymm hvm hge
      exact hv
  subst hrest
  have hsub : openl.erase (f, m, p) ⊆ openl := List.erase_subset _ _
  refine
    { g_ne := inv.g_ne, g_valid := inv.g_valid, strict := inv.strict
      val_bound := inv.val_bound
      open_f := fun e he => inv.open_f e (hsub he)
      open_g := fun e he => inv.open_g e (hsub he)
      open_sound := fun e he => inv.open_sound e (hsub he)
      pos_cur := hcur
      pos_reach := by
        have := inv.open_sound (f, m, p) hmem
        simpa using this
      ms_sub := fun d hd => hd
      pos_done := fun d hd => Or.inl hd
      key_inv := ?_, closed_g := inv.closed_g }
  intro p' v' hp' hp'p
  rcases inv.key_inv p' v' hp' with hopen | hclosed
  · refine Or.inl ((List.mem_erase_of_ne ?_).2 hopen)
    intro hcon
    exact hp'p (congrArg (fun t : AEntry => t.2.2) hcon)
  · exact Or.inr hclosed

/-- Climbing a chain to the end square: if some chain square is recorded no
worse than its position along the chain, then (unless everything up to the end
is finished, which is impossible while the end was never generated) the open
list holds an entry whose f-value is at most the chain length. -/
theorem aInv_climb {s : KnightBishopSolver} {a E : Position}
    {openl : List AEntry} {g : List (Position × Nat)} {closed : List Position}
    (inv : AInv s a E openl g closed) :
    ∀ (w u : List Position) (m : Nat),
    ChainV s a (u ++ w) → (u ++ w).getLastD a = E → w ≠ [] →
    m ≤ u.length → vLookup g (u.getLastD a) = some m →
    ∃ e ∈ openl, e.1 ≤ u.length + w.length := by
  intro w
  induction w with
  | nil => intro u m _ _ hne _ _; exact absurd rfl hne
  | cons q w ih =>
    intro u m hchain hlast _ hm hlk
    obtain ⟨hcu, hcw⟩ := (chainV_append s u (q :: w) a).1 hchain
    obtain ⟨⟨hs, hv⟩, hw⟩ := (chainV_cons s _ q w).1 hcw
    rcases inv.key_inv _ m hlk with hopen | ⟨hc, hcl⟩
    · refine ⟨_, hopen, ?_⟩
      have hkr : KnightReach (u.getLastD a) E (q :: w).length := by
        have h1 := chainV_reachV hcw
        rw [getLastD_append] at hlast
        rw [hlast] at h1
        exact reachV_knightReach h1
      have hadm := heuristic_admissible hkr
      simp only
      omega
    · obtain ⟨d, hd, hq⟩ := kStep_exists_move hs
      obtain ⟨hnE, himpl⟩ := hcl d hd
      rw [← hq] at hnE himpl
      cases w with
      | nil =>
        exfalso
        rw [getLastD_append, List.getLastD_cons, List.getLastD_nil] at hlast
        exact hnE hlast
      | cons q2 w2 =>
        obtain ⟨wv, hwv, hwvle⟩ := himpl hv
        have hres := ih (u ++ [q]) wv
          (by rw [List.append_assoc]; exact hchain)
          (by rw [List.append_assoc]; exact hlast)
          (by simp)
          (by simp only [List.length_append, List.length_singleton]; omega)
          (by rwa [getLastD_concat'])
        obtain ⟨e, he, hle⟩ := hres
        refine ⟨e, he, ?_⟩
        simp only [List.length_append, List.length_singleton,
          List.length_cons, List.length_nil] at hle ⊢
        omega

/-- Main loop of `a_star`: with the invariant and enough fuel the loop always
returns; a non-`-1` answer is the length of a real path; and whenever some
chain square to the end is recorded no worse than its chain index, the answer
is a positive value at most the chain length. -/
theorem aStarAux_spec (s : KnightBishopSolver) (a E : Position) :
    ∀ (fuel : Nat) (openl : List AEntry) (g : List (Position × Nat))
      (closed : List Position),
    AInv s a E openl g closed →
    openl.length + aPot s a g + 1 ≤ fuel →
    ∃ r : Int, aStarAux s E fuel openl g closed = some r ∧
      (r ≠ -1 → ∃ n : Nat, r = (n : Int) ∧ 1 ≤ n ∧ ReachEndN s a E n) ∧
      (∀ c : List Position, ChainV s a c → c.getLastD a = E →
        (∃ u w m, c = u ++ w ∧ w ≠ [] ∧ m ≤ u.length ∧
          vLookup g (u.getLastD a) = some m) →
        r ≠ -1 ∧ r ≤ (c.length : Int)) := by
  intro fuel
  induction fuel with
  | zero => intro openl g closed _ hf; omega
  | succ fuel ih =>
    intro openl g closed inv hf
    rw [aStarAux]
    cases hpop : popMin openl with
    | none =>
      obtain rfl : openl = [] := popMin_none.1 hpop
      refine ⟨-1, rfl, fun hr => absurd rfl hr, ?_⟩
      rintro c hchain hlast ⟨u, w, m, rfl, hwne, hm, hlk⟩
      obtain ⟨e, he, -⟩ := aInv_climb inv w u m hchain hlast hwne hm hlk
      exact absurd he (List.not_mem_nil e)
    | some epair =>
      obtain ⟨⟨f, m, p⟩, rest⟩ := epair
      obtain ⟨hmem, hrest, hmin⟩ := popMin_eq hpop
      have hlen : rest.length + 1 = openl.length := by
        rw [hrest]
        rw [List.length_erase_of_mem hmem]
        have : openl ≠ [] := fun hcon => by
          rw [hcon] at hmem
          exact List.not_mem_nil _ hmem
        cases openl with
        | nil => exact absurd rfl this
        | cons x xs => simp
      by_cases hskipb : (decide (p ∈ closed) &&
          ((vLookup g p).any fun v => decide (v < m))) = true
      · have hb := hskipb
        rw [Bool.and_eq_true] at hb
        obtain ⟨hb1, hb2⟩ := hb
        have hpc : p ∈ closed := of_decide_eq_true hb1
        obtain ⟨v, hv, hvm⟩ : ∃ v, vLookup g p = some v ∧ v < m := by
          cases hlook : vLookup g p with
          | none => rw [hlook] at hb2; simp [Option.any] at hb2
          | some v =>
            rw [hlook] at hb2
            simp [Option.any] at hb2
            exact ⟨v, rfl, hb2⟩
        have inv' := inv.pop_stale hpop hv hvm
        obtain ⟨r, hr, hsound, hopt⟩ := ih rest g closed inv' (by omega)
        refine ⟨r, ?_, hsound, hopt⟩
        simp only [hpop]
        rw [if_pos hskipb]
        exact hr
      · have hnoskip : ¬(p ∈ closed ∧ ∃ v, vLookup g p = some v ∧ v < m) := by
          rintro ⟨hc, v, hv, hlt⟩
          apply hskipb
          rw [Bool.and_eq_true]
          refine ⟨decide_eq_true hc, ?_⟩
          simp only [hv]
          exact decide_eq_true hlt
        have mid := inv.pop_expand hpop hnoskip
        have hpne : p ≠ E := by
          obtain ⟨v, hv, -⟩ := inv.open_g (f, m, p) hmem
          exact inv.g_ne p v hv
        have hfe : f = m + knightDistanceHeuristic p E := by
          have := inv.open_f (f, m, p) hmem
          simpa using this
        cases hexp : aStarExpand s E p m knightMoves rest g with
        | error r0 =>
          obtain ⟨rfl, hks⟩ := aStarExpand_error mid hexp
          refine ⟨(m : Int) + 1, ?_, ?_, ?_⟩
          · simp only [hpop]
            rw [if_neg hskipb]
            simp only [hexp]
          · intro _
            refine ⟨m + 1, by push_cast; ring, by omega, ?_⟩
            exact ⟨p, mid.pos_reach, hks⟩
          · rintro c hchain hlast ⟨u, w, mc, rfl, hwne, hmc, hlk⟩
            obtain ⟨e, he, hle⟩ := aInv_climb inv w u mc hchain hlast hwne
              hmc hlk
            have hminE := hmin e he
            have hf_le : f ≤ e.1 := aEntryLt_first hminE
            have hpos := heuristic_pos hpne
            constructor
            · intro hcon
              omega
            · have hm1 : m + 1 ≤ u.length + w.length := by omega
              simp only [List.length_append]
              push_cast
              omega
        | ok og =>
          obtain ⟨openl'', g''⟩ := og
          obtain ⟨hfinal, himpr, hmeas⟩ := aStarExpand_ok mid hexp
          have inv'' := hfinal.toAInv
          obtain ⟨r, hr, hsound, hopt⟩ := ih openl'' g'' (p :: closed) inv''
            (by omega)
          refine ⟨r, ?_, hsound, ?_⟩
          · simp only [hpop]
            rw [if_neg hskipb]
            simp only [hexp]
            exact hr
          · rintro c hchain hlast ⟨u, w, mc, rfl, hwne, hmc, hlk⟩
            obtain ⟨mc', hmc', hmcle⟩ := himpr _ _ hlk
            exact hopt _ hchain hlast ⟨u, w, mc', rfl, hwne, by omega, hmc'⟩

/-- `a_star` agrees with `bfs` on every board with valid start and end
squares. -/
theorem a_star_eq_bfs {s : KnightBishopSolver} {start endP : Position}
    (hend : isValidPosition s endP = true) :
    aStar s start endP = bfs s start endP := by
  by_cases hne : start = endP
  · rw [aStar, if_pos hne, bfs, if_pos hne]
  · have hsets : {n | ReachEndN s start endP n} =
        {n | ReachV s start endP n} := by
      ext n
      exact ⟨fun h => reachV_of_reachEndN hend h,
        fun h => reachEndN_of_reachV h⟩
    have hinv : AInv s start endP
        [(knightDistanceHeuristic start endP, 0, start)] [(start, 0)] [] := by
      refine
        { g_ne := ?_, g_valid := ?_, strict := List.pairwise_singleton _ _
          val_bound := ?_, open_f := ?_, open_g := ?_, open_sound := ?_
          key_inv := ?_, closed_g := fun p hp => absurd hp (List.not_mem_nil p) }
      · intro p v hp
        rw [vLookup_cons] at hp
        split_ifs at hp with hps
        · rw [hps]; exact hne
        · simp [vLookup] at hp
      · intro e he
        exact Or.inl (congrArg Prod.fst (List.mem_singleton.1 he))
      · intro e he
        rw [List.mem_singleton.1 he]
        simp [keyCount]
      · intro e he
        rw [List.mem_singleton.1 he]
        simp
      · intro e he
        rw [List.mem_singleton.1 he]
        exact ⟨0, by rw [vLookup_cons, if_pos rfl], le_refl _⟩
      · intro e he
        rw [List.mem_singleton.1 he]
        exact ReachV.refl
      · intro p v hp
        rw [vLookup_cons] at hp
        split_ifs at hp with hps
        · obtain rfl : (0 : Nat) = v := by simpa using hp
          refine Or.inl ?_
          rw [hps]
          simp
        · simp [vLookup] at hp
    have hfuel : ([(knightDistanceHeuristic start endP, 0, start)] :
        List AEntry).length + aPot s start [(start, 0)] + 1 ≤ aStarFuel s := by
      have hpot := aPot_le (s := s) (a := start) (g := [(start, 0)])
        (fun e he => Or.inl (congrArg Prod.fst (List.mem_singleton.1 he)))
        (fun e he => by rw [List.mem_singleton.1 he]; simp [keyCount])
      have hexpand : (boardCap s + 2) * (boardCap s + 3) =
          (boardCap s + 1) * (boardCap s + 3) + (boardCap s + 3) := by ring
      simp only [List.length_singleton]
      unfold aStarFuel
      unfold boardCap at hpot hexpand
      omega
    obtain ⟨r, hr, hsound, hopt⟩ := aStarAux_spec s start endP (aStarFuel s)
      [(knightDistanceHeuristic start endP, 0, start)] [(start, 0)] []
      hinv hfuel
    have haux : aStar s start endP = r := by
      rw [aStar, if_neg hne, hr, Option.getD_some]
    by_cases hex : ∃ n, ReachV s start endP n
    · obtain ⟨c, hc, hlast, hnd, hleast⟩ := exists_min_chain hex
      have hbfs : bfs s start endP = (c.length : Int) :=
        (bfs_spec s start endP).1 c.length (by rw [hsets]; exact hleast)
      have hcne : c ≠ [] := by
        intro hcon
        rw [hcon] at hlast
        exact hne hlast
      obtain ⟨hrne, hrle⟩ := hopt c hc hlast
        ⟨[], c, 0, rfl, hcne, le_refl 0, by
          rw [List.getLastD_nil, vLookup_cons, if_pos rfl]⟩
      obtain ⟨n, rfl, hn1, hreach⟩ := hsound hrne
      have hnge : c.length ≤ n :=
        hleast.2 (reachV_of_reachEndN hend hreach)
      have : n = c.length := by
        have := hrle
        exact_mod_cast le_antisymm (by exact_mod_cast hrle) hnge
      rw [haux, hbfs, this]
    · have hbfs : bfs s start endP = -1 :=
        (bfs_spec s start endP).2.mpr (fun ⟨n, hn⟩ =>
          hex ⟨n, reachV_of_reachEndN hend hn⟩)
      have hr1 : r = -1 := by
        by_contra hcon
        obtain ⟨n, -, -, hreach⟩ := hsound hcon
        exact hex ⟨n, reachV_of_reachEndN hend hreach⟩
      rw [haux, hbfs, hr1]



/-- C2: for every board, bishop, and valid start and end squares, `a_star`
and `ida_star` both return exactly the `bfs` answer.  A* pops entries in
`(f, g, position)` order with the admissible goal-aware heuristic, so an early
return on generating the end can never beat the optimum, and exhaustion
without reaching the end matches `bfs`'s `-1`; IDA* raises its bound to the
minimum cut-off f-value, which never exceeds the optimum, until its
depth-first search reaches the end at exactly the optimal depth. -/
theorem c2_astar_idastar_match_bfs (rows cols : Int)
    (bishop start endP : Position)
    (hstart : isValidPosition (mkSolver rows cols bishop) start = true)
    (hend : isValidPosition (mkSolver rows cols bishop) endP = true) :
    aStar (mkSolver rows cols bishop) start endP =
      bfs (mkSolver rows cols bishop) start endP ∧
    idaStar (mkSolver rows cols bishop) start endP =
      bfs (mkSolver rows cols bishop) start endP :=
  ⟨a_star_eq_bfs hend, ida_star_eq_bfs hstart hend⟩

/-- Witness for C2 on the 4×4 board with bishop (3, 2), start (0, 0) and end
(1, 2): both squares are valid and both strategies agree with `bfs`. -/
theorem c2_astar_idastar_match_bfs_witness :
    isValidPosition (mkSolver 4 4 ⟨3, 2⟩) ⟨0, 0⟩ = true ∧
    isValidPosition (mkSolver 4 4 ⟨3, 2⟩) ⟨1, 2⟩ = true ∧
    (aStar (mkSolver 4 4 ⟨3, 2⟩) ⟨0, 0⟩ ⟨1, 2⟩ =
        bfs (mkSolver 4 4 ⟨3, 2⟩) ⟨0, 0⟩ ⟨1, 2⟩ ∧
      idaStar (mkSolver 4 4 ⟨3, 2⟩) ⟨0, 0⟩ ⟨1, 2⟩ =
        bfs (mkSolver 4 4 ⟨3, 2⟩) ⟨0, 0⟩ ⟨1, 2⟩) :=
  ⟨by decide, by decide,
    c2_astar_idastar_match_bfs 4 4 ⟨3, 2⟩ ⟨0, 0⟩ ⟨1, 2⟩ (by decide) (by decide)⟩
